import Mathlib

/-!
Verification of the validate-then-aggregate pipeline of the events/cars
service (source files `CarsProjects.py` and `EventsProject.py`).

The Python code is shallowly embedded: dynamically typed raw records are
modelled by an explicit JSON-like value type, Python exceptions by
`Except PyErr`, `datetime` values by a structure of year/month/day plus an
intra-day tick, and the fixed date format `%d-%m-%Y` (together with the
fixed event-name regex and the `;` separator used by `main`) by executable
character-level parsers and formatters that follow CPython `_strptime`
semantics.  Python `sorted` (Timsort) is modelled by a stable insertion
sort, which produces the same output for the same key function.
-/

deriving instance DecidableEq for Except

namespace CarsService

/-- Python exception kinds that the embedded code can raise. -/
inductive PyErr where
  | keyError
  | typeError
  | valueError
  deriving DecidableEq

/-- JSON-like values, as decoded by `json.load` (`bool` is a subtype of
`int` in Python, so it is kept distinct and treated as an int where the
code does `isinstance(x, int)`). -/
inductive JValue where
  | jstr (s : String)
  | jint (n : Int)
  | jbool (b : Bool)
  | jnull
  | jlist (xs : List JValue)

/-- A raw car record: the validator and factory only consult the five
fixed keys, so a record is modelled by the (optional) value at each key. -/
structure RawCar where
  model : Option JValue
  price : Option JValue
  color : Option JValue
  mileage : Option JValue
  components : Option JValue

/-- The closed `CarColor` enum (GREEN/BLACK/WHITE/RED). -/
inductive CarColor where
  | GREEN
  | BLACK
  | WHITE
  | RED
  deriving DecidableEq

/-- Names of the enum members, as produced by `{color.name for color in CarColor}`. -/
def colorNames : List String := ["GREEN", "BLACK", "WHITE", "RED"]

/-- Membership of a character in the class `[A-Z\s]` (ASCII uppercase or
whitespace; the whitespace characters of the `re` class `\s`). -/
def isUpperWs (c : Char) : Bool :=
  (65 ≤ c.toNat && c.toNat ≤ 90) || c = ' ' || c = '\t' || c = '\n' || c = '\r'
    || c = '\x0b' || c = '\x0c'

/-- Full match of the pattern `[A-Z\s]+` anchored on both sides, i.e. the
regex `r\x7b^[A-Z\s]+$\x7d` used for `model_regex` and `collection_regex`. -/
def matchUpper (s : String) : Bool := !s.data.isEmpty && s.data.all isUpperWs

/-- Python `str()` of a value, used when values are interpolated into
error messages (the list rendering is abbreviated: no claim inspects
message text, only which field keys are present and whether the
interpolation itself raises). -/
def pyStr : JValue → String
  | .jstr s => s
  | .jint n => toString n
  | .jbool b => if b then "True" else "False"
  | .jnull => "None"
  | .jlist _ => "[...]"

/-- Evaluation of `data["model"]` inside an f-string: raises `KeyError`
when the key is absent. -/
def modelStr (d : RawCar) : Except PyErr String :=
  match d.model with
  | some v => .ok (pyStr v)
  | none => .error .keyError

/-- Evaluation of `data["price"]` inside an f-string. -/
def priceStr (d : RawCar) : Except PyErr String :=
  match d.price with
  | some v => .ok (pyStr v)
  | none => .error .keyError

/-- Python `isinstance(v, int)` together with `int(v)` (bools are ints). -/
def pyIntVal : JValue → Option Int
  | .jint n => some n
  | .jbool b => some (if b then 1 else 0)
  | _ => none

/-- String payload of a value, if it is a string. -/
def pyStrVal : JValue → Option String
  | .jstr s => some s
  | _ => none

/-- An error mapping: field name to list of messages (insertion-ordered,
as Python dict union `|=` with distinct keys). -/
abbrev ErrMap : Type := List (String × List String)

/-- The `model` block of `CarValidator.validate`: `re.match` on a
non-string raises `TypeError`. -/
def checkModel (d : RawCar) : Except PyErr ErrMap :=
  match d.model with
  | none => .ok [("model", ["not found"])]
  | some (.jstr m) =>
      if matchUpper m then .ok []
      else .ok [("model", [m ++ " does not match regex"])]
  | some _ => .error .typeError

/-- The `price` block of `CarValidator.validate`: every error message
interpolates `data["model"]`, which raises `KeyError` if `model` is absent. -/
def checkPrice (d : RawCar) : Except PyErr ErrMap :=
  match d.price with
  | none => (modelStr d).map (fun m => [("price", ["not found for model: " ++ m])])
  | some v =>
      match pyIntVal v with
      | none => (modelStr d).map
          (fun m => [("price", ["price for model " ++ m ++ " is not a number"])])
      | some n =>
          if n ≤ 0 then (modelStr d).map
            (fun m => [("price", ["price for model " ++ m ++ " must be greater than 0"])])
          else .ok []

/-- The `color` block of `CarValidator.validate`: `x not in set` raises
`TypeError` for an unhashable value (a list); error messages interpolate
`data["model"]`. -/
def checkColor (d : RawCar) : Except PyErr ErrMap :=
  match d.color with
  | none => (modelStr d).map (fun m => [("color", ["not found for model: " ++ m])])
  | some (.jlist _) => .error .typeError
  | some (.jstr s) =>
      if colorNames.contains s then .ok []
      else (modelStr d).map (fun m => [("color", ["not found color for model: " ++ m])])
  | some _ => (modelStr d).map (fun m => [("color", ["not found color for model: " ++ m])])

/-- The `mileage` block of `CarValidator.validate`: the not-a-number
message interpolates both `data["model"]` and `data["price"]` (the source
reuses the price value in the mileage message). -/
def checkMileage (d : RawCar) : Except PyErr ErrMap :=
  match d.mileage with
  | none => (modelStr d).map (fun m => [("mileage", ["not found for model: " ++ m])])
  | some v =>
      match pyIntVal v with
      | none => do
          let m ← modelStr d
          let p ← priceStr d
          .ok [("mileage", ["mileage for model " ++ m ++ " is not a number: " ++ p])]
      | some n =>
          if n ≤ 0 then (modelStr d).map
            (fun m => [("mileage", ["mileage for model " ++ m ++ " must be greater than 0"])])
          else .ok []

/-- Test applied to each element of the `components` collection:
`isinstance(comp, str) and re.match(collection_regex, comp)`. -/
def compOkJ : JValue → Bool
  | .jstr s => matchUpper s
  | _ => false

/-- The `components` block of `CarValidator.validate`.  Iterating a
string yields its one-character strings (each matches the regex iff the
character is in the class); iterating an int/bool/None raises `TypeError`. -/
def checkComponents (d : RawCar) : Except PyErr ErrMap :=
  match d.components with
  | none => (modelStr d).map (fun m => [("components", ["not found for model: " ++ m])])
  | some (.jlist xs) =>
      if xs.all compOkJ then .ok []
      else (modelStr d).map (fun m => [("components", ["Invalid components for model " ++ m])])
  | some (.jstr s) =>
      if s.data.all isUpperWs then .ok []
      else (modelStr d).map (fun m => [("components", ["Invalid components for model " ++ m])])
  | some _ => .error .typeError

/-- `CarValidator.validate`: evaluates the five field blocks in source
order (any raised exception propagates), accumulates the error mapping,
and returns `(errors is empty, errors)`. -/
def carValidate (d : RawCar) : Except PyErr (Bool × ErrMap) := do
  let e1 ← checkModel d
  let e2 ← checkPrice d
  let e3 ← checkColor d
  let e4 ← checkMileage d
  let e5 ← checkComponents d
  let errors : ErrMap := e1 ++ e2 ++ e3 ++ e4 ++ e5
  return (errors.isEmpty, errors)

/-- The `Car` dataclass.  Fields are typed per the dataclass annotations
(`model: str`, `price: int`, `color: CarColor`, `mileage: int`,
`components: list[str]`). -/
structure Car where
  model : String
  price : Int
  color : CarColor
  mileage : Int
  components : List String
  deriving DecidableEq

/-- `CarColor[name]` lookup by member name; raises `KeyError` (modelled
as `none`) for an unknown name. -/
def carColorOfName (s : String) : Option CarColor :=
  if s = "GREEN" then some .GREEN
  else if s = "BLACK" then some .BLACK
  else if s = "WHITE" then some .WHITE
  else if s = "RED" then some .RED
  else none

/-- Reading a list of JSON values as a list of strings (used to give the
`components` field its annotated type `list[str]`). -/
def jStrList : List JValue → Option (List String)
  | [] => some []
  | .jstr s :: rest => (jStrList rest).map (s :: ·)
  | _ :: _ => none

/-- Values acceptable as the `components` sequence of a `Car`.  A Python
string is itself a sequence of one-character strings, so a string value is
read as the list of its characters. -/
def strListOfJ : JValue → Option (List String)
  | .jlist xs => jStrList xs
  | .jstr s => some (s.data.map (fun c => (⟨[c]⟩ : String)))
  | _ => none

/-- `Car.from_dict`: direct, unchecked field extraction (`KeyError` when
a key is absent; `CarColor[...]` raising for an unknown color).  A value
that cannot inhabit the annotated field type is modelled as a
`TypeError`; such records never pass validation, and `from_dict` is only
reached on validated records. -/
def carFromDict (d : RawCar) : Except PyErr Car :=
  match d.model, d.price, d.color, d.mileage, d.components with
  | some mv, some pv, some cv, some uv, some xv =>
      (match pyStrVal mv, pyIntVal pv, (pyStrVal cv).bind carColorOfName,
             pyIntVal uv, strListOfJ xv with
       | some m, some p, some col, some u, some comps => .ok (Car.mk m p col u comps)
       | _, _, _, _, _ => .error .typeError)
  | _, _, _, _, _ => .error .keyError

/-- `CarsFileReader.get_cars` on an already-decoded list of raw records
(the JSON file reading itself is an external collaborator): validate each
record in order; on failure log and either raise `ValueError`
(stop mode) or skip; on success convert and append. -/
def getCars (stopOnError : Bool) : List RawCar → Except PyErr (List Car)
  | [] => .ok []
  | d :: rest =>
      match carValidate d with
      | .error e => .error e
      | .ok (isValid, _errs) =>
          if isValid then
            match carFromDict d with
            | .error e => .error e
            | .ok c => (getCars stopOnError rest).map (c :: ·)
          else if stopOnError then .error .valueError
          else getCars stopOnError rest

/-- Lexicographic strict comparison of character lists: the order Python
uses to compare strings (by code point). -/
def chLt : List Char → List Char → Bool
  | [], [] => false
  | [], _ :: _ => true
  | _ :: _, [] => false
  | a :: as, b :: bs => if a < b then true else if b < a then false else chLt as bs

/-- Python string comparison `a < b`. -/
def strLt (a b : String) : Bool := chLt a.data b.data

/-- Non-strict string order, the one in which result mappings are said to
be sorted. -/
def strLe (a b : String) : Prop := chLt b.data a.data = false

/-- Insertion step of a stable sort: `x` is placed before the first
element it is strictly below, hence after all elements it ties with. -/
def insertStable (lt : α → α → Bool) (x : α) : List α → List α
  | [] => [x]
  | y :: ys => if lt x y then x :: y :: ys else y :: insertStable lt x ys

/-- Stable sort by a strict comparison, modelling Python `sorted` (which
is stable): elements are inserted left to right, each after its ties. -/
def pySorted (lt : α → α → Bool) (l : List α) : List α :=
  l.foldl (fun acc x => insertStable lt x acc) []

/-- Strict comparison of `(model, bucket)` pairs by model name, flipped
when `descending` (Python `sorted(key=item[0], reverse=descending)`). -/
def modelPairLt (descending : Bool) (a b : String × List Car) : Bool :=
  if descending then strLt b.1 a.1 else strLt a.1 b.1

/-- One step of `get_model_cars_most_expensive`: the defaultdict lookup
creates the key at the end on first encounter; afterwards the bucket is
replaced by `[car]` on a strictly higher price, extended on a tie, and
left alone on a lower price (the running maximum is the price of the
bucket head). -/
def mceInsert (car : Car) : List (String × List Car) → List (String × List Car)
  | [] => [(car.model, [car])]
  | (m, b) :: rest =>
      if m = car.model then
        match b with
        | [] => (m, [car]) :: rest
        | b0 :: _ =>
            if b0.price < car.price then (m, [car]) :: rest
            else if car.price = b0.price then (m, b ++ [car]) :: rest
            else (m, b) :: rest
      else (m, b) :: mceInsert car rest

/-- The accumulation loop of `get_model_cars_most_expensive`. -/
def mceFold (cars : List Car) : List (String × List Car) :=
  cars.foldl (fun acc c => mceInsert c acc) []

/-- `CarsService.get_model_cars_most_expensive`: per-model priciest cars,
as an insertion-ordered mapping sorted by model name (descending by
default in the source; the flag is explicit here). -/
def getModelCarsMostExpensive (cars : List Car) (descending : Bool) :
    List (String × List Car) :=
  pySorted (modelPairLt descending) (mceFold cars)

/-- `CarsService.get_cars_mileage_than`: rejects a negative threshold
with `ValueError` (the `isinstance(mileage, int)` half of the guard is
enforced by the `Int` type of the argument), otherwise keeps the cars
with strictly greater mileage, in order. -/
def getCarsMileageThan (cars : List Car) (mileage : Int) : Except PyErr (List Car) :=
  if mileage < 0 then .error .valueError
  else .ok (cars.filter (fun car => decide (mileage < car.mileage)))

/-- One avg/min/max triple of `get_statistic_price_mileage` (Python
float arithmetic on integer data is exact; it is modelled in `ℚ`). -/
structure StatEntry where
  avg : ℚ
  low : ℚ
  high : ℚ
  deriving DecidableEq

/-- The statistics record returned by `get_statistic_price_mileage`. -/
structure PriceMileageStats where
  price : StatEntry
  mileage : StatEntry
  deriving DecidableEq

/-- Python `min` over a nonempty list (0 is never used: the empty case is
handled before the call). -/
def pyMin : List ℚ → ℚ
  | [] => 0
  | x :: xs => xs.foldl min x

/-- Python `max` over a nonempty list. -/
def pyMax : List ℚ → ℚ
  | [] => 0
  | x :: xs => xs.foldl max x

/-- Python `sum(l)/len(l)`. -/
def avgQ (l : List ℚ) : ℚ := l.sum / l.length

/-- `CarsService.get_statistic_price_mileage`: all-zero statistics on an
empty collection, otherwise avg/min/max of prices and of mileages. -/
def getStatisticPriceMileage (cars : List Car) : PriceMileageStats :=
  if cars.isEmpty then ⟨⟨0, 0, 0⟩, ⟨0, 0, 0⟩⟩
  else
    let prices := cars.map (fun c => (c.price : ℚ))
    let mileages := cars.map (fun c => (c.mileage : ℚ))
    ⟨⟨avgQ prices, pyMin prices, pyMax prices⟩,
     ⟨avgQ mileages, pyMin mileages, pyMax mileages⟩⟩

/-- Python `max(car.price for car in cars)` for a collection starting
with `c` (evaluated left to right). -/
def maxPriceFrom (c : Car) (cs : List Car) : Int :=
  cs.foldl (fun a x => max a x.price) c.price

/-- `CarsService.get_cars_most_expensive`: `max` over the price generator
raises `ValueError` on an empty collection; otherwise the cars sharing
the maximum price, in original order. -/
def getCarsMostExpensive (cars : List Car) : Except PyErr (List Car) :=
  match cars with
  | [] => .error .valueError
  | c :: rest =>
      let maxPrice := maxPriceFrom c rest
      .ok ((c :: rest).filter (fun car => decide (car.price = maxPrice)))

/-- The data-model invariant of a live `Car` (spec section 3): model and
components match `[A-Z\s]+`, price and mileage are strictly positive, the
color is one of the closed enum values. -/
def carInv (c : Car) : Prop :=
  matchUpper c.model = true ∧ 0 < c.price ∧
  c.color ∈ [CarColor.GREEN, CarColor.BLACK, CarColor.WHITE, CarColor.RED] ∧
  0 < c.mileage ∧ ∀ s ∈ c.components, matchUpper s = true

/-- The empty raw record (Python `\x7b\x7d`). -/
def emptyRawCar : RawCar := ⟨none, none, none, none, none⟩

/-- A valid raw record, used to exhibit the loader invariant concretely. -/
def sampleRawCar : RawCar :=
  ⟨some (.jstr "ABC"), some (.jint 100), some (.jstr "RED"), some (.jint 5),
   some (.jlist [.jstr "ABS", .jstr "LED"])⟩

/-- A concrete car collection with a tied per-model maximum (model X has
prices 100, 100, 50), used to instantiate the service theorems. -/
def sampleCars : List Car :=
  [⟨"X", 100, .RED, 6000, ["ABS"]⟩, ⟨"A", 7, .GREEN, 4000, []⟩,
   ⟨"X", 100, .BLACK, 2, []⟩, ⟨"X", 50, .WHITE, 9000, []⟩]

end CarsService

namespace EventsService

open CarsService (PyErr insertStable pySorted)

/-- A `datetime` value: calendar date plus an intra-day tick (time of
day at microsecond resolution; values produced by `strptime` with the
date-only format have tick 0, `datetime.now()` generally does not). -/
structure PyDateTime where
  year : Nat
  month : Nat
  day : Nat
  tick : Nat
  deriving DecidableEq

/-- Strict `datetime` comparison (lexicographic on date then time). -/
def dtLtP (a b : PyDateTime) : Prop :=
  a.year < b.year ∨ (a.year = b.year ∧ (a.month < b.month ∨ (a.month = b.month ∧
    (a.day < b.day ∨ (a.day = b.day ∧ a.tick < b.tick)))))

instance (a b : PyDateTime) : Decidable (dtLtP a b) := by
  unfold dtLtP
  infer_instance

/-- Boolean form of the strict `datetime` comparison. -/
def dtLtB (a b : PyDateTime) : Bool := decide (dtLtP a b)

/-- Non-strict `datetime` order (the order of a date-sorted sequence). -/
def dtLeP (a b : PyDateTime) : Prop := ¬ dtLtP b a

/-- Characters removed by Python `str.strip()` (the ASCII whitespace
characters). -/
def isPyWs (c : Char) : Bool :=
  c = ' ' || c = '\t' || c = '\n' || c = '\r' || c = '\x0b' || c = '\x0c'

/-- Removal of trailing whitespace from a character list. -/
def dropTrailingWs : List Char → List Char
  | [] => []
  | c :: cs =>
      match dropTrailingWs cs with
      | [] => if isPyWs c then [] else [c]
      | r => c :: r

/-- Python `str.strip()` on a character list. -/
def stripChars (l : List Char) : List Char := dropTrailingWs (l.dropWhile isPyWs)

/-- Python `str.strip()`. -/
def pyStrip (s : String) : String := ⟨stripChars s.data⟩

/-- Python `str.split(sep)` on a character list: splits at every
occurrence of the separator, keeping empty pieces. -/
def splitChars (sep : Char) : List Char → List (List Char)
  | [] => [[]]
  | c :: cs =>
      if c = sep then [] :: splitChars sep cs
      else
        match splitChars sep cs with
        | [] => [[c]]
        | p :: ps => (c :: p) :: ps

/-- Python `str.split(sep)` with a one-character separator. -/
def pySplit (sep : Char) (s : String) : List String :=
  (splitChars sep s.data).map (fun l => (⟨l⟩ : String))

/-- The accented (Polish) letters of the event-name character class. -/
def accentedChars : List Char :=
  ['Ą', 'ą', 'Ć', 'ć', 'Ę', 'ę', 'Ł', 'ł', 'Ń', 'ń', 'Ó', 'ó', 'Ś', 'ś',
   'Ź', 'ź', 'Ż', 'ż']

/-- Membership in the character class of the event-name regex
`[A-Za-z0-9 ĄąĆćĘęŁłŃńÓóŚśŹźŻż,.?!-]` used by `main`. -/
def nameChar (c : Char) : Bool :=
  (65 ≤ c.toNat && c.toNat ≤ 90) || (97 ≤ c.toNat && c.toNat ≤ 122) ||
  (48 ≤ c.toNat && c.toNat ≤ 57) || c = ' ' || c = ',' || c = '.' || c = '?' ||
  c = '!' || c = '-' || accentedChars.contains c

/-- Full match of the event-name regex (one or more class characters,
anchored on both sides). -/
def nameMatches (s : String) : Bool := !s.data.isEmpty && s.data.all nameChar

/-- Numeric value of a digit character. -/
def digitVal (c : Char) : Nat := c.toNat - 48

/-- Test for an ASCII digit. -/
def isDig (c : Char) : Bool := 48 ≤ c.toNat && c.toNat ≤ 57

/-- The `%d` field of `_strptime`: the regex alternation
`3[01]|[12]\d|0[1-9]|[1-9]` (a two-character alternative is always
followed by a digit, so the single-digit fallback can never rescue a
failed continuation and the match is deterministic). -/
def parseDay : List Char → Option (Nat × List Char)
  | [] => none
  | [c1] => if 49 ≤ c1.toNat && c1.toNat ≤ 57 then some (digitVal c1, []) else none
  | c1 :: c2 :: rest =>
      if c1 = '3' && (c2 = '0' || c2 = '1') then
        some (digitVal c1 * 10 + digitVal c2, rest)
      else if (c1 = '1' || c1 = '2') && isDig c2 then
        some (digitVal c1 * 10 + digitVal c2, rest)
      else if 49 ≤ c1.toNat && c1.toNat ≤ 57 then some (digitVal c1, c2 :: rest)
      else if c1 = '0' && 49 ≤ c2.toNat && c2.toNat ≤ 57 then some (digitVal c2, rest)
      else none

/-- The `%m` field of `_strptime`: the regex alternation
`1[0-2]|0[1-9]|[1-9]`. -/
def parseMonth : List Char → Option (Nat × List Char)
  | [] => none
  | [c1] => if 49 ≤ c1.toNat && c1.toNat ≤ 57 then some (digitVal c1, []) else none
  | c1 :: c2 :: rest =>
      if c1 = '1' && (c2 = '0' || c2 = '1' || c2 = '2') then
        some (digitVal c1 * 10 + digitVal c2, rest)
      else if c1 = '0' && 49 ≤ c2.toNat && c2.toNat ≤ 57 then some (digitVal c2, rest)
      else if 49 ≤ c1.toNat && c1.toNat ≤ 57 then some (digitVal c1, c2 :: rest)
      else none

/-- The `%Y` field of `_strptime`: exactly four digits. -/
def parseYear4 : List Char → Option (Nat × List Char)
  | c1 :: c2 :: c3 :: c4 :: rest =>
      if isDig c1 && isDig c2 && isDig c3 && isDig c4 then
        some (((digitVal c1 * 10 + digitVal c2) * 10 + digitVal c3) * 10 + digitVal c4,
              rest)
      else none
  | _ => none

/-- Gregorian leap-year test, as in `datetime`. -/
def isLeap (y : Nat) : Bool := y % 4 = 0 && (y % 100 != 0 || y % 400 = 0)

/-- Number of days of a month, as in `datetime`. -/
def daysInMonth (y m : Nat) : Nat :=
  if m = 2 then (if isLeap y then 29 else 28)
  else if m = 4 || m = 6 || m = 9 || m = 11 then 30
  else 31

/-- `datetime.strptime(s, DATE_FORMAT)` for the fixed format `%d-%m-%Y`:
match day, literal `-`, month, literal `-`, four-digit year, require the
whole string consumed, then build the `datetime` (rejecting year 0 —
`MINYEAR` is 1 — and a day beyond the month length).  `none` models the
`ValueError` the call raises. -/
def strptimeDMY (s : String) : Option PyDateTime :=
  match parseDay s.data with
  | some (d, dash1 :: r1) =>
      if dash1 = '-' then
        match parseMonth r1 with
        | some (m, dash2 :: r2) =>
            if dash2 = '-' then
              match parseYear4 r2 with
              | some (y, []) =>
                  if 1 ≤ y && d ≤ daysInMonth y m then some ⟨y, m, d, 0⟩ else none
              | _ => none
            else none
        | _ => none
      else none
  | _ => none

/-- Decimal digit characters (for `strftime` zero padding). -/
def digitChar (n : Nat) : Char :=
  match n with
  | 0 => '0'
  | 1 => '1'
  | 2 => '2'
  | 3 => '3'
  | 4 => '4'
  | 5 => '5'
  | 6 => '6'
  | 7 => '7'
  | 8 => '8'
  | _ => '9'

/-- Two-digit zero-padded rendering (`%d`, `%m`; the rendered values are
always below 100). -/
def pad2 (n : Nat) : List Char := [digitChar (n / 10 % 10), digitChar (n % 10)]

/-- Four-digit zero-padded rendering: `%Y` as documented (0001, 0002, ...).
Some platforms render years below 1000 unpadded; the two renderings agree
on every year from 1000 on, in particular on all dates a validator with
past dates disallowed and a contemporary `now` lets through. -/
def pad4 (n : Nat) : List Char :=
  [digitChar (n / 1000 % 10), digitChar (n / 100 % 10), digitChar (n / 10 % 10),
   digitChar (n % 10)]

/-- `date.strftime(DATE_FORMAT)` for the fixed format `%d-%m-%Y`. -/
def strftimeDMY (d : PyDateTime) : String :=
  ⟨pad2 d.day ++ '-' :: (pad2 d.month ++ '-' :: pad4 d.year)⟩

/-- The `Event` dataclass: a name and a parsed date. -/
structure Event where
  event_name : String
  date : PyDateTime
  deriving DecidableEq

/-- `EventValidator.validate` with the fixed name regex, date format and
`;` separator, parameterised by `allow_past_dates` and the current moment
`now` (`datetime.now()`).  The line must split into exactly two parts;
the name and date parts are stripped before checking; a parsed date
strictly before `now` is rejected unless past dates are allowed. -/
def eventValidate (allowPast : Bool) (now : PyDateTime) (line : String) :
    Bool × List (String × List String) :=
  match pySplit ';' line with
  | [p, q] =>
      let eventName := pyStrip p
      let dateStr := pyStrip q
      let e1 :=
        if eventName = "" then [("event_name", ["Empty event name"])]
        else if nameMatches eventName then []
        else [("event_name", ["does not match regex"])]
      let e2 :=
        if dateStr = "" then [("date", ["Empty date"])]
        else
          match strptimeDMY dateStr with
          | some d =>
              if !allowPast && dtLtB d now then [("date", ["Date is in the past"])]
              else []
          | none => [("date", ["not in the format"])]
      ((e1 ++ e2).isEmpty, e1 ++ e2)
  | _ => (false, [("format", ["Invalid format, expected name;date"])])

/-- `Event.from_str` with the fixed format and default `;` separator:
tuple unpacking of the split raises `ValueError` unless there are exactly
two parts; the date part is parsed unstripped (`strptime` raising is the
`ValueError` the spec calls `MalformedInput`). -/
def eventFromStr (data : String) : Except PyErr Event :=
  match pySplit ';' data with
  | [eventName, dateStr] =>
      (match strptimeDMY dateStr with
       | some d => .ok ⟨eventName, d⟩
       | none => .error .valueError)
  | _ => .error .valueError

/-- Strict comparison of events by the sort key `event.date`. -/
def evLt (a b : Event) : Bool := dtLtB a.date b.date

/-- The loading loop of `EventsFileReader.get_events` over the lines
delivered by the reader: validate each line; append the converted event
when valid (a conversion failure propagates); otherwise raise in stop
mode or skip. -/
def loadEvents (stop allowPast : Bool) (now : PyDateTime) :
    List String → Except PyErr (List Event)
  | [] => .ok []
  | l :: rest =>
      match eventValidate allowPast now l with
      | (true, _) =>
          (match eventFromStr l with
           | .ok e => (loadEvents stop allowPast now rest).map (e :: ·)
           | .error er => .error er)
      | (false, _) =>
          if stop then .error .valueError else loadEvents stop allowPast now rest

/-- `EventsFileReader.get_events` on the raw file lines: the text reader
collaborator strips each line, the loop builds the event list, and the
result is sorted ascending by date (Python stable `sorted`). -/
def getEvents (stop allowPast : Bool) (now : PyDateTime) (fileLines : List String) :
    Except PyErr (List Event) :=
  (loadEvents stop allowPast now (fileLines.map pyStrip)).map (pySorted evLt)

/-- The line written for one event: the f-string
`name;strftime(date, DATE_FORMAT)`. -/
def saveLine (e : Event) : String := e.event_name ++ ";" ++ strftimeDMY e.date

/-- `EventService.save_sorted_events`: the lines handed to the writer
collaborator, one `saveLine` per event in order. -/
def saveSortedEvents (events : List Event) : List String :=
  events.map saveLine

/-- One step of `collections.Counter`: bump the count of `s`, inserting
new keys at the end (dict insertion order). -/
def bumpCount : List (String × Nat) → String → List (String × Nat)
  | [], s => [(s, 1)]
  | (t, c) :: rest, s =>
      if t = s then (t, c + 1) :: rest else (t, c) :: bumpCount rest s

/-- `collections.Counter` over a list of strings, as an insertion-ordered
association list. -/
def counterOf (l : List String) : List (String × Nat) := l.foldl bumpCount []

/-- `EventService.get_most_common_date`, parameterised by the pure
formatting function `strftime(date_format)` induces on dates: raises
`ValueError` on an empty collection; otherwise counts the formatted
dates and keeps those with the maximum count, together with that count. -/
def getMostCommonDate (events : List Event) (fmt : PyDateTime → String) :
    Except PyErr (List String × Nat) :=
  if events.isEmpty then .error .valueError
  else
    let dateCounts := counterOf (events.map (fun e => fmt e.date))
    let maxCount := (dateCounts.map (fun p => p.2)).foldl max 0
    .ok ((dateCounts.filter (fun p => p.2 = maxCount)).map (fun p => p.1), maxCount)

/-- Side conditions a `datetime` produced by `strptimeDMY` satisfies
(used for the write/read round trip). -/
def dateOk (d : PyDateTime) : Prop :=
  1 ≤ d.year ∧ d.year ≤ 9999 ∧ 1 ≤ d.month ∧ d.month ≤ 12 ∧ 1 ≤ d.day ∧
  d.day ≤ daysInMonth d.year d.month ∧ d.tick = 0

/-- Properties every event held after a successful `get_events` has: a
nonempty separator-free name with a non-whitespace first character whose
stripped form matches the name regex, a well-formed date, and (when past
dates are disallowed) a date not before `now`. -/
def goodEvent (allowPast : Bool) (now : PyDateTime) (e : Event) : Prop :=
  (∃ c cs, e.event_name.data = c :: cs ∧ isPyWs c = false) ∧
  (∀ c ∈ e.event_name.data, c ≠ ';') ∧
  nameMatches (pyStrip e.event_name) = true ∧
  dateOk e.date ∧
  (allowPast = false → dtLtB e.date now = false)

/-- A reference current moment for the concrete instances (all sample
dates lie in 2030, in its future). -/
def refNow : PyDateTime := ⟨2024, 1, 1, 0⟩

/-- The event lines of the spec acceptance example. -/
def specLines : List String := ["B;02-01-2030", "A;01-01-2030", "A;01-01-2030"]

/-- The loaded-and-sorted result of the spec acceptance example. -/
def specEvents : List Event :=
  [⟨"A", ⟨2030, 1, 1, 0⟩⟩, ⟨"A", ⟨2030, 1, 1, 0⟩⟩, ⟨"B", ⟨2030, 1, 2, 0⟩⟩]

/-- A line that passes validation (the date part is stripped before
parsing there) but on which `Event.from_str` fails (it parses the date
part unstripped). -/
def mismatchLine : String := "A; 01-01-2030"

end EventsService

namespace CarsService

/-- The cars the claim says a model maps to: among the cars of model `m`
(in encounter order), exactly those whose price equals the maximum price
observed for that model. -/
def bestOf (m : String) (cars : List Car) : List Car :=
  match cars.filter (fun c => c.model = m) with
  | [] => []
  | c :: rest => (c :: rest).filter (fun x => x.price = maxPriceFrom c rest)

/-- The key order of the result mapping: by model name, descending when
the flag is set. -/
def keyOrd (descending : Bool) (a b : String) : Prop :=
  match descending with
  | true => strLe b a
  | false => strLe a b

/-- Sortedness with respect to a strict Boolean comparison: no later
element is strictly below an earlier one. -/
abbrev SortedBy (lt : α → α → Bool) (l : List α) : Prop :=
  l.Pairwise (fun a b => lt b a = false)

theorem mem_insertStable {lt : α → α → Bool} {x z : α} :
    ∀ {l : List α}, z ∈ insertStable lt x l ↔ z = x ∨ z ∈ l := by
  intro l
  induction l with
  | nil => simp [insertStable]
  | cons y ys ih =>
      simp only [insertStable]
      split
      · simp
      · simp only [List.mem_cons, ih]
        tauto

theorem insertStable_perm (lt : α → α → Bool) (x : α) :
    ∀ l : List α, (insertStable lt x l).Perm (x :: l) := by
  intro l
  induction l with
  | nil => simp [insertStable]
  | cons y ys ih =>
      simp only [insertStable]
      split
      · exact List.Perm.refl _
      · exact (ih.cons y).trans (List.Perm.swap x y ys)

theorem insertStable_sorted {lt : α → α → Bool}
    (hasym : ∀ x y, lt x y = true → lt y x = false)
    (htr : ∀ x y z, lt x y = true → lt z y = false → lt z x = false)
    (x : α) : ∀ {l : List α}, SortedBy lt l → SortedBy lt (insertStable lt x l) := by
  intro l
  induction l with
  | nil =>
      intro _
      simp [insertStable, SortedBy]
  | cons y ys ih =>
      intro hl
      obtain ⟨hy, hys⟩ := List.pairwise_cons.mp hl
      simp only [insertStable]
      split
      case isTrue hxy =>
        refine List.pairwise_cons.mpr ⟨?_, List.pairwise_cons.mpr ⟨hy, hys⟩⟩
        intro z hz
        rcases List.mem_cons.mp hz with rfl | hz
        · exact hasym x z hxy
        · exact htr x y z hxy (hy z hz)
      case isFalse hxy =>
        refine List.pairwise_cons.mpr ⟨?_, ih hys⟩
        intro z hz
        rcases mem_insertStable.mp hz with rfl | hz
        · exact Bool.eq_false_iff.mpr hxy
        · exact hy z hz

theorem foldl_insert_sorted {lt : α → α → Bool}
    (hasym : ∀ x y, lt x y = true → lt y x = false)
    (htr : ∀ x y z, lt x y = true → lt z y = false → lt z x = false) :
    ∀ (l acc : List α), SortedBy lt acc →
      SortedBy lt (l.foldl (fun a x => insertStable lt x a) acc) := by
  intro l
  induction l with
  | nil => intro acc h; exact h
  | cons x xs ih =>
      intro acc h
      exact ih (insertStable lt x acc) (insertStable_sorted hasym htr x h)

theorem pySorted_sorted {lt : α → α → Bool}
    (hasym : ∀ x y, lt x y = true → lt y x = false)
    (htr : ∀ x y z, lt x y = true → lt z y = false → lt z x = false)
    (l : List α) : SortedBy lt (pySorted lt l) := by
  exact foldl_insert_sorted hasym htr l [] (List.Pairwise.nil)

theorem foldl_insert_perm (lt : α → α → Bool) :
    ∀ (l acc : List α), (l.foldl (fun a x => insertStable lt x a) acc).Perm (acc ++ l) := by
  intro l
  induction l with
  | nil => intro acc; simp
  | cons x xs ih =>
      intro acc
      refine (ih (insertStable lt x acc)).trans ?_
      refine (List.Perm.append_right xs ((insertStable_perm lt x acc))).trans ?_
      exact List.perm_middle.symm

theorem pySorted_perm (lt : α → α → Bool) (l : List α) : (pySorted lt l).Perm l := by
  simpa using foldl_insert_perm lt l []

theorem mem_pySorted {lt : α → α → Bool} {l : List α} {z : α} :
    z ∈ pySorted lt l ↔ z ∈ l :=
  (pySorted_perm lt l).mem_iff

theorem insertStable_filter {lt : α → α → Bool} {P : α → Bool}
    (hco : ∀ a b, P a = true → P b = true → lt a b = false)
    (htr2 : ∀ x y z, lt x y = true → lt z y = false → lt x z = true)
    (x : α) : ∀ {l : List α}, SortedBy lt l →
      (insertStable lt x l).filter P
        = l.filter P ++ (if P x = true then [x] else []) := by
  intro l
  induction l with
  | nil =>
      intro _
      by_cases hx : P x = true
      · simp [insertStable, List.filter_cons, hx]
      · simp [insertStable, List.filter_cons, Bool.eq_false_iff.mpr hx]
  | cons y ys ih =>
      intro hl
      obtain ⟨hy, hys⟩ := List.pairwise_cons.mp hl
      simp only [insertStable]
      split
      case isTrue hxy =>
        by_cases hx : P x = true
        · have hnil : (y :: ys).filter P = [] := by
            rw [List.filter_eq_nil_iff]
            intro z hz hPz
            rcases List.mem_cons.mp hz with rfl | hz
            · rw [hco x z hx hPz] at hxy
              exact Bool.false_ne_true hxy
            · have h1 : lt x z = true := htr2 x y z hxy (hy z hz)
              rw [hco x z hx hPz] at h1
              exact Bool.false_ne_true h1
          rw [List.filter_cons, if_pos hx, hnil, if_pos hx]
          rfl
        · have hx0 : P x = false := Bool.eq_false_iff.mpr hx
          rw [List.filter_cons, hx0]
          simp [hx0]
      case isFalse hxy =>
        rw [List.filter_cons, List.filter_cons, ih hys]
        by_cases hYl : P y = true
        · rw [if_pos hYl, if_pos hYl]
          rfl
        · rw [if_neg hYl, if_neg hYl]

theorem pySorted_filter {lt : α → α → Bool} {P : α → Bool}
    (hasym : ∀ x y, lt x y = true → lt y x = false)
    (htr : ∀ x y z, lt x y = true → lt z y = false → lt z x = false)
    (hco : ∀ a b, P a = true → P b = true → lt a b = false)
    (htr2 : ∀ x y z, lt x y = true → lt z y = false → lt x z = true)
    (l : List α) : (pySorted lt l).filter P = l.filter P := by
  have aux : ∀ (l acc : List α), SortedBy lt acc →
      (l.foldl (fun a x => insertStable lt x a) acc).filter P
        = acc.filter P ++ l.filter P := by
    intro l
    induction l with
    | nil => intro acc _; simp
    | cons x xs ih =>
        intro acc h
        have h1 := ih (insertStable lt x acc) (insertStable_sorted hasym htr x h)
        rw [List.foldl_cons, h1, insertStable_filter hco htr2 x h, List.filter_cons,
          List.append_assoc]
        by_cases hx : P x = true
        · rw [if_pos hx, hx]
          rfl
        · have hx0 : P x = false := Bool.eq_false_iff.mpr hx
          rw [if_neg hx, hx0]
          rfl
  simpa using aux l [] (List.Pairwise.nil)

theorem insertStable_of_ge {lt : α → α → Bool} {x : α} :
    ∀ {l : List α}, (∀ y ∈ l, lt x y = false) → insertStable lt x l = l ++ [x] := by
  intro l
  induction l with
  | nil => intro _; rfl
  | cons y ys ih =>
      intro h
      have hy : lt x y = false := h y (List.mem_cons_self y ys)
      simp only [insertStable]
      rw [if_neg (by rw [hy]; exact Bool.false_ne_true)]
      rw [ih (fun z hz => h z (List.mem_cons_of_mem y hz))]
      simp

theorem pySorted_of_sorted {lt : α → α → Bool} :
    ∀ {l : List α}, SortedBy lt l → pySorted lt l = l := by
  have aux : ∀ (l acc : List α), SortedBy lt (acc ++ l) →
      l.foldl (fun a x => insertStable lt x a) acc = acc ++ l := by
    intro l
    induction l with
    | nil => intro acc _; simp
    | cons x xs ih =>
        intro acc h
        obtain ⟨h1, h2, h3⟩ := List.pairwise_append.mp h
        obtain ⟨h2a, h2b⟩ := List.pairwise_cons.mp h2
        have hins : insertStable lt x acc = acc ++ [x] := by
          apply insertStable_of_ge
          intro y hy
          exact h3 y hy x (List.mem_cons_self x xs)
        have hsorted : SortedBy lt ((acc ++ [x]) ++ xs) := by
          refine List.pairwise_append.mpr ⟨?_, h2b, ?_⟩
          · refine List.pairwise_append.mpr ⟨h1, List.pairwise_singleton _ _, ?_⟩
            intro a ha b hb
            rw [List.mem_singleton] at hb
            rw [hb]
            exact h3 a ha x (List.mem_cons_self x xs)
          · intro a ha b hb
            rcases List.mem_append.mp ha with ha | ha
            · exact h3 a ha b (List.mem_cons_of_mem x hb)
            · rw [List.mem_singleton] at ha
              subst ha
              exact h2a b hb
        rw [List.foldl_cons, hins, ih (acc ++ [x]) hsorted]
        simp
  intro l hl
  have h := aux l [] (by simpa using hl)
  simpa using h

theorem chLt_irrefl : ∀ l : List Char, chLt l l = false := by
  intro l
  induction l with
  | nil => rfl
  | cons c cs ih =>
      simp only [chLt]
      rw [if_neg (lt_irrefl c), if_neg (lt_irrefl c)]
      exact ih

theorem chLt_asym : ∀ a b : List Char, chLt a b = true → chLt b a = false := by
  intro a
  induction a with
  | nil =>
      intro b h
      cases b with
      | nil => simp [chLt] at h
      | cons y bs => rfl
  | cons x as ih =>
      intro b h
      cases b with
      | nil => simp [chLt] at h
      | cons y bs =>
          simp only [chLt] at h ⊢
          by_cases hxy : x < y
          · rw [if_neg (asymm hxy), if_pos hxy]
          · by_cases hyx : y < x
            · rw [if_neg hxy, if_pos hyx] at h
              exact absurd h Bool.false_ne_true
            · rw [if_neg hxy, if_neg hyx] at h
              rw [if_neg hyx, if_neg hxy]
              exact ih bs h

theorem chLt_trans : ∀ a b c : List Char,
    chLt a b = true → chLt b c = true → chLt a c = true := by
  intro a
  induction a with
  | nil =>
      intro b c h1 h2
      cases b with
      | nil => simp [chLt] at h1
      | cons y bs =>
          cases c with
          | nil => simp [chLt] at h2
          | cons z cs => rfl
  | cons x as ih =>
      intro b c h1 h2
      cases b with
      | nil => simp [chLt] at h1
      | cons y bs =>
          cases c with
          | nil => simp [chLt] at h2
          | cons z cs =>
              simp only [chLt] at h1 h2 ⊢
              by_cases hxy : x < y
              · by_cases hyz : y < z
                · rw [if_pos (lt_trans hxy hyz)]
                · by_cases hzy : z < y
                  · rw [if_neg hyz, if_pos hzy] at h2
                    exact absurd h2 Bool.false_ne_true
                  · have hq : y = z := le_antisymm (not_lt.mp hzy) (not_lt.mp hyz)
                    rw [← hq, if_pos hxy]
              · by_cases hyx : y < x
                · rw [if_neg hxy, if_pos hyx] at h1
                  exact absurd h1 Bool.false_ne_true
                · have he : x = y := le_antisymm (not_lt.mp hyx) (not_lt.mp hxy)
                  rw [if_neg hxy, if_neg hyx] at h1
                  by_cases hyz : y < z
                  · rw [he, if_pos hyz]
                  · by_cases hzy : z < y
                    · rw [if_neg hyz, if_pos hzy] at h2
                      exact absurd h2 Bool.false_ne_true
                    · have hq : y = z := le_antisymm (not_lt.mp hzy) (not_lt.mp hyz)
                      rw [if_neg hyz, if_neg hzy] at h2
                      have hxz : ¬ x < z := by rw [he, hq]; exact lt_irrefl z
                      have hzx : ¬ z < x := by rw [he, hq]; exact lt_irrefl z
                      rw [if_neg hxz, if_neg hzx]
                      exact ih bs cs h1 h2

theorem chLt_conn : ∀ a b : List Char, chLt a b = false → chLt b a = false → a = b := by
  intro a
  induction a with
  | nil =>
      intro b h1 _
      cases b with
      | nil => rfl
      | cons y bs => simp [chLt] at h1
  | cons x as ih =>
      intro b h1 h2
      cases b with
      | nil => simp [chLt] at h2
      | cons y bs =>
          simp only [chLt] at h1 h2
          by_cases hxy : x < y
          · rw [if_pos hxy] at h1
            exact absurd h1 (by simp)
          · by_cases hyx : y < x
            · rw [if_pos hyx] at h2
              exact absurd h2 (by simp)
            · have he : x = y := le_antisymm (not_lt.mp hyx) (not_lt.mp hxy)
              rw [if_neg hxy, if_neg hyx] at h1
              rw [if_neg hyx, if_neg hxy] at h2
              rw [he, ih bs h1 h2]

theorem chLt_cases (a b : List Char) : chLt a b = true ∨ chLt b a = true ∨ a = b := by
  cases h1 : chLt a b
  · cases h2 : chLt b a
    · exact Or.inr (Or.inr (chLt_conn a b h1 h2))
    · exact Or.inr (Or.inl rfl)
  · exact Or.inl rfl

theorem chLt_tr1 (x y z : List Char) (h1 : chLt x y = true) (h2 : chLt z y = false) :
    chLt z x = false := by
  cases h3 : chLt z x
  · rfl
  · rw [chLt_trans z x y h3 h1] at h2
    exact absurd h2 (by simp)

theorem chLt_tr2 (x y z : List Char) (h1 : chLt x y = true) (h2 : chLt z y = false) :
    chLt x z = true := by
  rcases chLt_cases x z with h | h | h
  · exact h
  · rw [chLt_trans z x y h h1] at h2
    exact absurd h2 (by simp)
  · rw [← h] at h2
    rw [h1] at h2
    exact absurd h2 (by simp)

theorem chLt_tr1r (x y z : List Char) (h1 : chLt y x = true) (h2 : chLt y z = false) :
    chLt x z = false := by
  cases h3 : chLt x z
  · rfl
  · rw [chLt_trans y x z h1 h3] at h2
    exact absurd h2 (by simp)

theorem chLt_tr2r (x y z : List Char) (h1 : chLt y x = true) (h2 : chLt y z = false) :
    chLt z x = true := by
  rcases chLt_cases z x with h | h | h
  · exact h
  · rw [chLt_trans y x z h1 h] at h2
    exact absurd h2 (by simp)
  · rw [h] at h2
    rw [h1] at h2
    exact absurd h2 (by simp)

theorem modelPairLt_asym (desc : Bool) (x y : String × List Car) :
    modelPairLt desc x y = true → modelPairLt desc y x = false := by
  cases desc
  · exact chLt_asym x.1.data y.1.data
  · exact chLt_asym y.1.data x.1.data

theorem modelPairLt_tr1 (desc : Bool) (x y z : String × List Car) :
    modelPairLt desc x y = true → modelPairLt desc z y = false →
      modelPairLt desc z x = false := by
  cases desc
  · exact chLt_tr1 x.1.data y.1.data z.1.data
  · exact chLt_tr1r x.1.data y.1.data z.1.data

end CarsService

namespace EventsService

open CarsService (SortedBy insertStable pySorted pySorted_sorted pySorted_perm
  mem_pySorted pySorted_filter pySorted_of_sorted)

theorem evLt_asym (x y : Event) : evLt x y = true → evLt y x = false := by
  simp only [evLt, dtLtB, decide_eq_true_eq, decide_eq_false_iff_not]
  unfold dtLtP
  omega

theorem evLt_tr1 (x y z : Event) :
    evLt x y = true → evLt z y = false → evLt z x = false := by
  simp only [evLt, dtLtB, decide_eq_true_eq, decide_eq_false_iff_not]
  unfold dtLtP
  omega

theorem evLt_tr2 (x y z : Event) :
    evLt x y = true → evLt z y = false → evLt x z = true := by
  simp only [evLt, dtLtB, decide_eq_true_eq, decide_eq_false_iff_not]
  unfold dtLtP
  omega

theorem evLt_eqd (d : PyDateTime) (a b : Event) :
    decide (a.date = d) = true → decide (b.date = d) = true → evLt a b = false := by
  simp only [evLt, dtLtB, decide_eq_true_eq, decide_eq_false_iff_not]
  intro h1 h2
  rw [h1, h2]
  unfold dtLtP
  omega

theorem evLt_false_iff (a b : Event) : evLt a b = false ↔ dtLeP b.date a.date := by
  simp [evLt, dtLtB, dtLeP]

theorem loadEvents_ok_of_valid {stop allowPast : Bool} {now : PyDateTime} :
    ∀ {lines : List String} {evs : List Event},
      (∀ l ∈ lines, (eventValidate allowPast now l).fst = true) →
      loadEvents stop allowPast now lines = .ok evs →
      evs = lines.filterMap (fun l => (eventFromStr l).toOption) := by
  intro lines
  induction lines with
  | nil =>
      intro evs _ h
      simp only [loadEvents] at h
      cases h
      rfl
  | cons l rest ih =>
      intro evs hval h
      have hv : (eventValidate allowPast now l).fst = true :=
        hval l (List.mem_cons_self l rest)
      unfold loadEvents at h
      rcases hEV : eventValidate allowPast now l with ⟨b, errs⟩
      rw [hEV] at h hv
      cases b with
      | false => exact absurd hv (by simp)
      | true =>
          cases hFS : eventFromStr l with
          | error er =>
              rw [hFS] at h
              simp at h
          | ok e =>
              rw [hFS] at h
              cases hR : loadEvents stop allowPast now rest with
              | error er =>
                  rw [hR] at h
                  simp [Except.map] at h
              | ok es =>
                  rw [hR] at h
                  simp only [Except.map] at h
                  cases h
                  have hrest := ih (fun x hx => hval x (List.mem_cons_of_mem l hx)) hR
                  rw [List.filterMap_cons, hFS]
                  simp [Except.toOption, hrest]

theorem eventValidate_true_elim {allowPast : Bool} {now : PyDateTime} {line : String}
    (h : (eventValidate allowPast now line).fst = true) :
    ∃ p q, pySplit ';' line = [p, q] ∧
      nameMatches (pyStrip p) = true ∧
      ∃ d, strptimeDMY (pyStrip q) = some d ∧
        (allowPast = false → dtLtB d now = false) := by
  unfold eventValidate at h
  rcases hsp : pySplit ';' line with _ | ⟨p, rest⟩
  · rw [hsp] at h
    simp at h
  rcases rest with _ | ⟨q, rest2⟩
  · rw [hsp] at h
    simp at h
  rcases rest2 with _ | ⟨r, rest3⟩
  · rw [hsp] at h
    simp only at h
    refine ⟨p, q, rfl, ?_⟩
    by_cases h1 : pyStrip p = ""
    · rw [if_pos h1] at h
      simp at h
    rw [if_neg h1] at h
    by_cases h2 : nameMatches (pyStrip p) = true
    · rw [if_pos h2] at h
      refine ⟨h2, ?_⟩
      by_cases h3 : pyStrip q = ""
      · rw [if_pos h3] at h
        simp at h
      rw [if_neg h3] at h
      cases hd : strptimeDMY (pyStrip q) with
      | none =>
          rw [hd] at h
          simp at h
      | some d =>
          rw [hd] at h
          simp only [List.nil_append] at h
          refine ⟨d, rfl, ?_⟩
          intro hap
          subst hap
          by_cases h4 : dtLtB d now = true
          · rw [if_pos (by simp [h4])] at h
            simp at h
          · exact Bool.eq_false_iff.mpr h4
    · rw [if_neg h2] at h
      simp at h
  · rw [hsp] at h
    simp at h

theorem eventFromStr_ok_elim {line : String} {e : Event}
    (h : eventFromStr line = .ok e) :
    ∃ p q, pySplit ';' line = [p, q] ∧ e.event_name = p ∧
      strptimeDMY q = some e.date := by
  unfold eventFromStr at h
  rcases hsp : pySplit ';' line with _ | ⟨p, rest⟩
  · rw [hsp] at h
    simp at h
  rcases rest with _ | ⟨q, rest2⟩
  · rw [hsp] at h
    simp at h
  rcases rest2 with _ | ⟨r, rest3⟩
  · rw [hsp] at h
    simp only at h
    cases hd : strptimeDMY q with
    | none =>
        rw [hd] at h
        simp at h
    | some d =>
        rw [hd] at h
        cases h
        exact ⟨p, q, rfl, rfl, hd⟩
  · rw [hsp] at h
    simp at h

/-- Claim C4: for every input sequence of event lines that all pass
validation, the sequence returned by `EventsFileReader.get_events` is
sorted ascending by event date, and the sort is stable: events with equal
dates appear in the same relative order as their lines appeared in the
input file (for every date, filtering the result to that date gives
exactly the events of that date in file order). -/
theorem getEvents_sorted_stable (stop allowPast : Bool) (now : PyDateTime)
    (lines : List String) (evs : List Event)
    (hval : ∀ l ∈ lines, (eventValidate allowPast now (pyStrip l)).fst = true)
    (hok : getEvents stop allowPast now lines = .ok evs) :
    List.Pairwise (fun a b => dtLeP a.date b.date) evs ∧
    ∀ d : PyDateTime,
      evs.filter (fun e => decide (e.date = d))
        = ((lines.map pyStrip).filterMap (fun l => (eventFromStr l).toOption)).filter
            (fun e => decide (e.date = d)) := by
  unfold getEvents at hok
  cases hL : loadEvents stop allowPast now (lines.map pyStrip) with
  | error e =>
      rw [hL] at hok
      simp [Except.map] at hok
  | ok raw =>
      rw [hL] at hok
      simp only [Except.map] at hok
      cases hok
      have hval2 : ∀ l ∈ lines.map pyStrip, (eventValidate allowPast now l).fst = true := by
        intro l hl
        rcases List.mem_map.mp hl with ⟨l0, hl0, rfl⟩
        exact hval l0 hl0
      have hraw := loadEvents_ok_of_valid hval2 hL
      constructor
      · have hs := pySorted_sorted evLt_asym evLt_tr1 raw
        exact hs.imp (fun h => (evLt_false_iff _ _).mp h)
      · intro d
        rw [← hraw]
        exact pySorted_filter evLt_asym evLt_tr1 (evLt_eqd d) evLt_tr2 raw

/-- Witness for C4: the acceptance example, three lines loaded in stop
mode with past dates disallowed, sorted to A(01-01), A(01-01), B(02-01). -/
theorem getEvents_sorted_stable_witness :
    (∀ l ∈ specLines, (eventValidate false refNow (pyStrip l)).fst = true) ∧
    getEvents true false refNow specLines = .ok specEvents ∧
    (List.Pairwise (fun a b => dtLeP a.date b.date) specEvents ∧
     ∀ d : PyDateTime,
       specEvents.filter (fun e => decide (e.date = d))
         = ((specLines.map pyStrip).filterMap (fun l => (eventFromStr l).toOption)).filter
             (fun e => decide (e.date = d))) :=
  ⟨by decide, by decide,
   getEvents_sorted_stable true false refNow specLines specEvents (by decide) (by decide)⟩

/-- Counterexample to claim C2 as stated: the line `A; 01-01-2030` passes
`EventValidator.validate` (which strips the date part before parsing),
yet `Event.from_str` on the very same line fails, because it hands the
unstripped ` 01-01-2030` to `strptime`. -/
theorem eventValidate_fromStr_mismatch :
    (eventValidate false refNow mismatchLine).fst = true ∧
    eventFromStr mismatchLine = .error .valueError := by
  decide

/-- Claim C2 (amended): for every line on which `EventValidator.validate`
returns true (fixed delimiter, date format and current moment) and whose
date part carries no surrounding whitespace (stripping it is the
identity), `Event.from_str` on that same line succeeds. -/
theorem eventFromStr_ok_of_validate (allowPast : Bool) (now : PyDateTime)
    (line p q : String)
    (hval : (eventValidate allowPast now line).fst = true)
    (hsp : pySplit ';' line = [p, q])
    (hq : pyStrip q = q) :
    ∃ e, eventFromStr line = .ok e := by
  rcases eventValidate_true_elim hval with ⟨p2, q2, hsp2, _hname, d, hd, _hpast⟩
  rw [hsp] at hsp2
  obtain ⟨hp, hq2⟩ : p = p2 ∧ q = q2 := by
    simpa using hsp2
  subst hp
  subst hq2
  rw [hq] at hd
  refine ⟨⟨p, d⟩, ?_⟩
  unfold eventFromStr
  rw [hsp]
  simp [hd]

/-- Witness for C2: a validated line with a whitespace-free date part
converts successfully. -/
theorem eventFromStr_ok_of_validate_witness :
    (eventValidate false refNow "A;01-01-2030").fst = true ∧
    pySplit ';' "A;01-01-2030" = ["A", "01-01-2030"] ∧
    pyStrip "01-01-2030" = "01-01-2030" ∧
    ∃ e, eventFromStr "A;01-01-2030" = .ok e :=
  ⟨by decide, by decide, by decide,
   eventFromStr_ok_of_validate false refNow "A;01-01-2030" "A" "01-01-2030"
     (by decide) (by decide) (by decide)⟩

end EventsService

namespace CarsService

theorem foldl_min_le_init [LinearOrder α] :
    ∀ (xs : List α) (x : α), xs.foldl min x ≤ x := by
  intro xs
  induction xs with
  | nil => intro x; exact le_refl x
  | cons y ys ih => intro x; exact le_trans (ih (min x y)) (min_le_left x y)

theorem foldl_min_le_mem [LinearOrder α] :
    ∀ (xs : List α) (x : α), ∀ y ∈ xs, xs.foldl min x ≤ y := by
  intro xs
  induction xs with
  | nil => intro x y hy; exact absurd hy (List.not_mem_nil y)
  | cons z zs ih =>
      intro x y hy
      rcases List.mem_cons.mp hy with rfl | hy
      · exact le_trans (foldl_min_le_init zs (min x y)) (min_le_right x y)
      · exact ih (min x z) y hy

theorem foldl_min_mem [LinearOrder α] :
    ∀ (xs : List α) (x : α), xs.foldl min x = x ∨ xs.foldl min x ∈ xs := by
  intro xs
  induction xs with
  | nil => intro x; exact Or.inl rfl
  | cons z zs ih =>
      intro x
      rcases ih (min x z) with h | h
      · rcases min_choice x z with hm | hm
        · exact Or.inl (by rw [List.foldl_cons, h, hm])
        · exact Or.inr (by rw [List.foldl_cons, h, hm]; exact List.mem_cons_self z zs)
      · exact Or.inr (List.mem_cons_of_mem z h)

theorem foldl_max_init_le [LinearOrder α] :
    ∀ (xs : List α) (x : α), x ≤ xs.foldl max x := by
  intro xs
  induction xs with
  | nil => intro x; exact le_refl x
  | cons y ys ih => intro x; exact le_trans (le_max_left x y) (ih (max x y))

theorem foldl_max_mem_le [LinearOrder α] :
    ∀ (xs : List α) (x : α), ∀ y ∈ xs, y ≤ xs.foldl max x := by
  intro xs
  induction xs with
  | nil => intro x y hy; exact absurd hy (List.not_mem_nil y)
  | cons z zs ih =>
      intro x y hy
      rcases List.mem_cons.mp hy with rfl | hy
      · exact le_trans (le_max_right x y) (foldl_max_init_le zs (max x y))
      · exact ih (max x z) y hy

theorem foldl_max_mem [LinearOrder α] :
    ∀ (xs : List α) (x : α), xs.foldl max x = x ∨ xs.foldl max x ∈ xs := by
  intro xs
  induction xs with
  | nil => intro x; exact Or.inl rfl
  | cons z zs ih =>
      intro x
      rcases ih (max x z) with h | h
      · rcases max_choice x z with hm | hm
        · exact Or.inl (by rw [List.foldl_cons, h, hm])
        · exact Or.inr (by rw [List.foldl_cons, h, hm]; exact List.mem_cons_self z zs)
      · exact Or.inr (List.mem_cons_of_mem z h)

theorem pyMin_mem {l : List ℚ} (h : l ≠ []) : pyMin l ∈ l := by
  cases l with
  | nil => exact absurd rfl h
  | cons x xs =>
      rcases foldl_min_mem xs x with h1 | h1
      · rw [pyMin, h1]
        exact List.mem_cons_self x xs
      · exact List.mem_cons_of_mem x h1

theorem pyMin_le {l : List ℚ} {y : ℚ} (hy : y ∈ l) : pyMin l ≤ y := by
  cases l with
  | nil => exact absurd hy (List.not_mem_nil y)
  | cons x xs =>
      rcases List.mem_cons.mp hy with rfl | hy
      · exact foldl_min_le_init xs y
      · exact foldl_min_le_mem xs x y hy

theorem pyMax_mem {l : List ℚ} (h : l ≠ []) : pyMax l ∈ l := by
  cases l with
  | nil => exact absurd rfl h
  | cons x xs =>
      rcases foldl_max_mem xs x with h1 | h1
      · rw [pyMax, h1]
        exact List.mem_cons_self x xs
      · exact List.mem_cons_of_mem x h1

theorem le_pyMax {l : List ℚ} {y : ℚ} (hy : y ∈ l) : y ≤ pyMax l := by
  cases l with
  | nil => exact absurd hy (List.not_mem_nil y)
  | cons x xs =>
      rcases List.mem_cons.mp hy with rfl | hy
      · exact foldl_max_init_le xs y
      · exact foldl_max_mem_le xs x y hy

theorem avgQ_mul_length {l : List ℚ} (h : l ≠ []) : avgQ l * l.length = l.sum := by
  have hlen : (l.length : ℚ) ≠ 0 := by
    have h0 : l.length ≠ 0 := fun h0 => h (List.eq_nil_of_length_eq_zero h0)
    exact_mod_cast h0
  rw [avgQ, div_mul_cancel₀ _ hlen]

/-- Claim C1 (code bug): `CarValidator.validate` is claimed total, but on
the empty record — `model` missing together with any other required field
missing or ill-typed — building the `price` "not found" message evaluates
`data["model"]` and raises `KeyError` instead of returning the
(bool, errors) pair with `price` among the error keys. -/
theorem carValidate_raises_on_empty_record :
    carValidate emptyRawCar = .error .keyError := by
  rfl

/-- Claim C8: `get_cars_mileage_than` raises exactly when the (integer)
threshold is negative; for every non-negative threshold it returns the
cars with strictly greater mileage — a sublist of the collection, hence
in original order — and it returns every such car and no other. -/
theorem getCarsMileageThan_spec (cars : List Car) (t : Int) :
    (t < 0 → getCarsMileageThan cars t = .error .valueError) ∧
    (0 ≤ t → ∃ l, getCarsMileageThan cars t = .ok l ∧
      l.Sublist cars ∧ (∀ c ∈ l, t < c.mileage) ∧
      (∀ c ∈ cars, t < c.mileage → c ∈ l)) := by
  constructor
  · intro h
    unfold getCarsMileageThan
    rw [if_pos h]
  · intro h
    refine ⟨cars.filter (fun car => decide (t < car.mileage)), ?_, ?_, ?_, ?_⟩
    · unfold getCarsMileageThan
      rw [if_neg (not_lt.mpr h)]
    · exact List.filter_sublist cars
    · intro c hc
      have h1 := List.of_mem_filter hc
      simpa using h1
    · intro c hc ht
      exact List.mem_filter.mpr ⟨hc, by simpa using ht⟩

/-- Witness for C8: threshold -1 raises; threshold 5000 keeps exactly the
cars with mileage above 5000 of the sample collection. -/
theorem getCarsMileageThan_witness :
    getCarsMileageThan sampleCars (-1) = .error .valueError ∧
    (∃ l, getCarsMileageThan sampleCars 5000 = .ok l ∧
      l.Sublist sampleCars ∧ (∀ c ∈ l, (5000 : Int) < c.mileage) ∧
      (∀ c ∈ sampleCars, (5000 : Int) < c.mileage → c ∈ l)) :=
  ⟨(getCarsMileageThan_spec sampleCars (-1)).1 (by decide),
   (getCarsMileageThan_spec sampleCars 5000).2 (by decide)⟩

/-- Claim C9: `get_statistic_price_mileage` returns all six zeros on the
empty collection, and on a non-empty collection the price and mileage
entries hold the average (characterised by avg times size = sum), an
attained lower bound, and an attained upper bound of the respective
field values. -/
theorem getStatisticPriceMileage_spec (cars : List Car) :
    (cars = [] → getStatisticPriceMileage cars = ⟨⟨0, 0, 0⟩, ⟨0, 0, 0⟩⟩) ∧
    (cars ≠ [] →
      (getStatisticPriceMileage cars).price.avg * cars.length
          = (cars.map (fun c => (c.price : ℚ))).sum ∧
      (getStatisticPriceMileage cars).price.low ∈ cars.map (fun c => (c.price : ℚ)) ∧
      (∀ c ∈ cars, (getStatisticPriceMileage cars).price.low ≤ (c.price : ℚ)) ∧
      (getStatisticPriceMileage cars).price.high ∈ cars.map (fun c => (c.price : ℚ)) ∧
      (∀ c ∈ cars, (c.price : ℚ) ≤ (getStatisticPriceMileage cars).price.high) ∧
      (getStatisticPriceMileage cars).mileage.avg * cars.length
          = (cars.map (fun c => (c.mileage : ℚ))).sum ∧
      (getStatisticPriceMileage cars).mileage.low ∈ cars.map (fun c => (c.mileage : ℚ)) ∧
      (∀ c ∈ cars, (getStatisticPriceMileage cars).mileage.low ≤ (c.mileage : ℚ)) ∧
      (getStatisticPriceMileage cars).mileage.high ∈ cars.map (fun c => (c.mileage : ℚ)) ∧
      (∀ c ∈ cars, (c.mileage : ℚ) ≤ (getStatisticPriceMileage cars).mileage.high)) := by
  constructor
  · intro h
    subst h
    rfl
  · intro h
    have hne : ¬ cars.isEmpty = true := by
      cases cars with
      | nil => exact absurd rfl h
      | cons c rest => simp
    have hS : getStatisticPriceMileage cars
        = ⟨⟨avgQ (cars.map (fun c => (c.price : ℚ))),
            pyMin (cars.map (fun c => (c.price : ℚ))),
            pyMax (cars.map (fun c => (c.price : ℚ)))⟩,
           ⟨avgQ (cars.map (fun c => (c.mileage : ℚ))),
            pyMin (cars.map (fun c => (c.mileage : ℚ))),
            pyMax (cars.map (fun c => (c.mileage : ℚ)))⟩⟩ := by
      unfold getStatisticPriceMileage
      rw [if_neg hne]
    have hpne : cars.map (fun c => (c.price : ℚ)) ≠ [] := by
      simpa using h
    have hmne : cars.map (fun c => (c.mileage : ℚ)) ≠ [] := by
      simpa using h
    have hlen : ((cars.map (fun c => (c.price : ℚ))).length : ℚ) = (cars.length : ℚ) := by
      rw [List.length_map]
    have hlenm : ((cars.map (fun c => (c.mileage : ℚ))).length : ℚ) = (cars.length : ℚ) := by
      rw [List.length_map]
    rw [hS]
    refine ⟨?_, pyMin_mem hpne, ?_, pyMax_mem hpne, ?_, ?_,
            pyMin_mem hmne, ?_, pyMax_mem hmne, ?_⟩
    · rw [← hlen]
      exact avgQ_mul_length hpne
    · intro c hc
      exact pyMin_le (List.mem_map_of_mem _ hc)
    · intro c hc
      exact le_pyMax (List.mem_map_of_mem _ hc)
    · rw [← hlenm]
      exact avgQ_mul_length hmne
    · intro c hc
      exact pyMin_le (List.mem_map_of_mem _ hc)
    · intro c hc
      exact le_pyMax (List.mem_map_of_mem _ hc)

/-- Witness for C9: the empty collection yields the zero record, and the
sample collection gets its actual statistics. -/
theorem getStatisticPriceMileage_witness :
    getStatisticPriceMileage [] = ⟨⟨0, 0, 0⟩, ⟨0, 0, 0⟩⟩ ∧
    ((getStatisticPriceMileage sampleCars).price.avg * sampleCars.length
        = (sampleCars.map (fun c => (c.price : ℚ))).sum ∧
      (getStatisticPriceMileage sampleCars).price.low
          ∈ sampleCars.map (fun c => (c.price : ℚ)) ∧
      (∀ c ∈ sampleCars, (getStatisticPriceMileage sampleCars).price.low ≤ (c.price : ℚ)) ∧
      (getStatisticPriceMileage sampleCars).price.high
          ∈ sampleCars.map (fun c => (c.price : ℚ)) ∧
      (∀ c ∈ sampleCars, (c.price : ℚ) ≤ (getStatisticPriceMileage sampleCars).price.high) ∧
      (getStatisticPriceMileage sampleCars).mileage.avg * sampleCars.length
          = (sampleCars.map (fun c => (c.mileage : ℚ))).sum ∧
      (getStatisticPriceMileage sampleCars).mileage.low
          ∈ sampleCars.map (fun c => (c.mileage : ℚ)) ∧
      (∀ c ∈ sampleCars,
        (getStatisticPriceMileage sampleCars).mileage.low ≤ (c.mileage : ℚ)) ∧
      (getStatisticPriceMileage sampleCars).mileage.high
          ∈ sampleCars.map (fun c => (c.mileage : ℚ)) ∧
      (∀ c ∈ sampleCars,
        (c.mileage : ℚ) ≤ (getStatisticPriceMileage sampleCars).mileage.high)) :=
  ⟨(getStatisticPriceMileage_spec []).1 rfl,
   (getStatisticPriceMileage_spec sampleCars).2 (by decide)⟩

/-- Claim C10: `get_cars_most_expensive` fails with an error on the empty
collection (maximum of an empty sequence) — unlike the statistics
operation, which returns the zero record there — and on a non-empty
collection returns exactly the cars whose price equals the attained
maximum price, in original order. -/
theorem getCarsMostExpensive_spec (cars : List Car) :
    (cars = [] → getCarsMostExpensive cars = .error .valueError) ∧
    getStatisticPriceMileage [] = ⟨⟨0, 0, 0⟩, ⟨0, 0, 0⟩⟩ ∧
    (cars ≠ [] → ∃ M, M ∈ cars.map Car.price ∧ (∀ c ∈ cars, c.price ≤ M) ∧
      getCarsMostExpensive cars = .ok (cars.filter (fun c => decide (c.price = M)))) := by
  refine ⟨?_, rfl, ?_⟩
  · intro h
    subst h
    rfl
  · intro h
    cases cars with
    | nil => exact absurd rfl h
    | cons c rest =>
        refine ⟨maxPriceFrom c rest, ?_, ?_, rfl⟩
        · have hfm : maxPriceFrom c rest = (rest.map Car.price).foldl max c.price := by
            rw [maxPriceFrom, List.foldl_map]
          rcases foldl_max_mem (rest.map Car.price) c.price with h1 | h1
          · rw [List.map_cons, hfm, h1]
            exact List.mem_cons_self _ _
          · rw [List.map_cons, hfm]
            exact List.mem_cons_of_mem _ h1
        · intro x hx
          have hfm : maxPriceFrom c rest = (rest.map Car.price).foldl max c.price := by
            rw [maxPriceFrom, List.foldl_map]
          rcases List.mem_cons.mp hx with rfl | hx
          · rw [hfm]
            exact foldl_max_init_le _ _
          · rw [hfm]
            exact foldl_max_mem_le _ _ _ (List.mem_map_of_mem _ hx)

/-- Witness for C10: the empty collection raises while the statistics
call returns zeros, and the sample collection keeps both price-100 cars. -/
theorem getCarsMostExpensive_witness :
    getCarsMostExpensive [] = .error .valueError ∧
    (∃ M, M ∈ sampleCars.map Car.price ∧ (∀ c ∈ sampleCars, c.price ≤ M) ∧
      getCarsMostExpensive sampleCars
        = .ok (sampleCars.filter (fun c => decide (c.price = M)))) :=
  ⟨(getCarsMostExpensive_spec []).1 rfl,
   (getCarsMostExpensive_spec sampleCars).2.2 (by decide)⟩

theorem map_singleton_ne_ok_nil {x : Except PyErr String} {g : String → String × List String} :
    x.map (fun m => [g m]) ≠ .ok ([] : ErrMap) := by
  cases x <;> simp [Except.map]

theorem carValidate_true_elim {d : RawCar} {errs : ErrMap}
    (hv : carValidate d = .ok (true, errs)) :
    checkModel d = .ok [] ∧ checkPrice d = .ok [] ∧ checkColor d = .ok [] ∧
    checkMileage d = .ok [] ∧ checkComponents d = .ok [] := by
  unfold carValidate at hv
  cases h1 : checkModel d with
  | error e =>
      rw [h1] at hv
      simp [Bind.bind, Except.bind] at hv
  | ok e1 =>
  rw [h1] at hv
  simp only [Bind.bind, Except.bind] at hv
  cases h2 : checkPrice d with
  | error e =>
      rw [h2] at hv
      simp at hv
  | ok e2 =>
  rw [h2] at hv
  simp only at hv
  cases h3 : checkColor d with
  | error e =>
      rw [h3] at hv
      simp at hv
  | ok e3 =>
  rw [h3] at hv
  simp only at hv
  cases h4 : checkMileage d with
  | error e =>
      rw [h4] at hv
      simp at hv
  | ok e4 =>
  rw [h4] at hv
  simp only at hv
  cases h5 : checkComponents d with
  | error e =>
      rw [h5] at hv
      simp at hv
  | ok e5 =>
  rw [h5] at hv
  simp only [pure, Except.pure, Except.ok.injEq, Prod.mk.injEq] at hv
  have hb : (e1 ++ e2 ++ e3 ++ e4 ++ e5).isEmpty = true := hv.1
  rw [List.isEmpty_iff] at hb
  simp only [List.append_eq_nil] at hb
  obtain ⟨⟨⟨⟨hb1, hb2⟩, hb3⟩, hb4⟩, hb5⟩ := hb
  subst hb1
  subst hb2
  subst hb3
  subst hb4
  subst hb5
  exact ⟨rfl, rfl, rfl, rfl, rfl⟩

theorem checkModel_nil_elim {d : RawCar} (h : checkModel d = .ok []) :
    ∃ m, d.model = some (.jstr m) ∧ matchUpper m = true := by
  unfold checkModel at h
  cases hm : d.model with
  | none =>
      rw [hm] at h
      simp at h
  | some v =>
      rw [hm] at h
      cases v with
      | jstr m =>
          simp only at h
          by_cases hmm : matchUpper m = true
          · exact ⟨m, rfl, hmm⟩
          · rw [if_neg hmm] at h
            simp at h
      | jint n => simp only at h; simp at h
      | jbool b => simp only at h; simp at h
      | jnull => simp only at h; simp at h
      | jlist xs => simp only at h; simp at h

theorem checkPrice_nil_elim {d : RawCar} (h : checkPrice d = .ok []) :
    ∃ v n, d.price = some v ∧ pyIntVal v = some n ∧ 0 < n := by
  unfold checkPrice at h
  cases hp : d.price with
  | none =>
      rw [hp] at h
      exact absurd h map_singleton_ne_ok_nil
  | some v =>
      rw [hp] at h
      simp only at h
      cases hpi : pyIntVal v with
      | none =>
          rw [hpi] at h
          simp only at h
          exact absurd h map_singleton_ne_ok_nil
      | some n =>
          rw [hpi] at h
          simp only at h
          by_cases hn : n ≤ 0
          · rw [if_pos hn] at h
            exact absurd h map_singleton_ne_ok_nil
          · exact ⟨v, n, rfl, hpi, lt_of_not_le hn⟩

theorem checkColor_nil_elim {d : RawCar} (h : checkColor d = .ok []) :
    ∃ s, d.color = some (.jstr s) ∧ colorNames.contains s = true := by
  unfold checkColor at h
  cases hc : d.color with
  | none =>
      rw [hc] at h
      exact absurd h map_singleton_ne_ok_nil
  | some v =>
      rw [hc] at h
      cases v with
      | jstr s =>
          simp only at h
          by_cases hs : colorNames.contains s = true
          · exact ⟨s, rfl, hs⟩
          · rw [if_neg hs] at h
            exact absurd h map_singleton_ne_ok_nil
      | jint n => simp only at h; exact absurd h map_singleton_ne_ok_nil
      | jbool b => simp only at h; exact absurd h map_singleton_ne_ok_nil
      | jnull => simp only at h; exact absurd h map_singleton_ne_ok_nil
      | jlist xs => simp only at h; simp at h

theorem checkMileage_nil_elim {d : RawCar} (h : checkMileage d = .ok []) :
    ∃ v n, d.mileage = some v ∧ pyIntVal v = some n ∧ 0 < n := by
  unfold checkMileage at h
  cases hu : d.mileage with
  | none =>
      rw [hu] at h
      exact absurd h map_singleton_ne_ok_nil
  | some v =>
      rw [hu] at h
      simp only at h
      cases hui : pyIntVal v with
      | none =>
          rw [hui] at h
          simp only at h
          cases hms : modelStr d with
          | error e =>
              rw [hms] at h
              simp [Bind.bind, Except.bind] at h
          | ok m =>
              rw [hms] at h
              simp only [Bind.bind, Except.bind] at h
              cases hps : priceStr d with
              | error e =>
                  rw [hps] at h
                  simp at h
              | ok p =>
                  rw [hps] at h
                  simp at h
      | some n =>
          rw [hui] at h
          simp only at h
          by_cases hn : n ≤ 0
          · rw [if_pos hn] at h
            exact absurd h map_singleton_ne_ok_nil
          · exact ⟨v, n, rfl, hui, lt_of_not_le hn⟩

theorem checkComponents_nil_elim {d : RawCar} (h : checkComponents d = .ok []) :
    (∃ xs, d.components = some (.jlist xs) ∧ xs.all compOkJ = true) ∨
    (∃ s, d.components = some (.jstr s) ∧ s.data.all isUpperWs = true) := by
  unfold checkComponents at h
  cases hx : d.components with
  | none =>
      rw [hx] at h
      exact absurd h map_singleton_ne_ok_nil
  | some v =>
      rw [hx] at h
      cases v with
      | jstr s =>
          simp only at h
          by_cases hs : s.data.all isUpperWs = true
          · exact Or.inr ⟨s, rfl, hs⟩
          · rw [if_neg hs] at h
            exact absurd h map_singleton_ne_ok_nil
      | jint n => simp only at h; simp at h
      | jbool b => simp only at h; simp at h
      | jnull => simp only at h; simp at h
      | jlist xs =>
          simp only at h
          by_cases hall : xs.all compOkJ = true
          · exact Or.inl ⟨xs, rfl, hall⟩
          · rw [if_neg hall] at h
            exact absurd h map_singleton_ne_ok_nil

theorem colorOfName_some {s : String} (h : colorNames.contains s = true) :
    ∃ col, carColorOfName s = some col ∧
      col ∈ [CarColor.GREEN, CarColor.BLACK, CarColor.WHITE, CarColor.RED] := by
  have hmem : s = "GREEN" ∨ s = "BLACK" ∨ s = "WHITE" ∨ s = "RED" := by
    simpa [colorNames, List.contains] using h
  rcases hmem with rfl | rfl | rfl | rfl
  · exact ⟨.GREEN, rfl, by simp⟩
  · exact ⟨.BLACK, rfl, by simp⟩
  · exact ⟨.WHITE, rfl, by simp⟩
  · exact ⟨.RED, rfl, by simp⟩

theorem jStrList_of_all : ∀ {xs : List JValue}, xs.all compOkJ = true →
    ∃ comps, jStrList xs = some comps ∧ ∀ s ∈ comps, matchUpper s = true := by
  intro xs
  induction xs with
  | nil =>
      intro _
      exact ⟨[], rfl, by simp⟩
  | cons v rest ih =>
      intro h
      rw [List.all_cons, Bool.and_eq_true] at h
      obtain ⟨hv, hrest⟩ := h
      cases v with
      | jstr s =>
          obtain ⟨comps, hc, hinv⟩ := ih hrest
          refine ⟨s :: comps, ?_, ?_⟩
          · rw [jStrList, hc]
            rfl
          · intro t ht
            rcases List.mem_cons.mp ht with rfl | ht
            · exact hv
            · exact hinv t ht
      | jint n => simp [compOkJ] at hv
      | jbool b => simp [compOkJ] at hv
      | jnull => simp [compOkJ] at hv
      | jlist ys => simp [compOkJ] at hv

theorem matchUpper_singleton {c : Char} (h : isUpperWs c = true) :
    matchUpper ⟨[c]⟩ = true := by
  simp [matchUpper, h]

theorem fromDict_inv {d : RawCar} {errs : ErrMap} {c : Car}
    (hv : carValidate d = .ok (true, errs)) (hf : carFromDict d = .ok c) : carInv c := by
  obtain ⟨h1, h2, h3, h4, h5⟩ := carValidate_true_elim hv
  obtain ⟨m, hm, hmm⟩ := checkModel_nil_elim h1
  obtain ⟨pv, pn, hp, hpi, hpn⟩ := checkPrice_nil_elim h2
  obtain ⟨cs, hcs, hcontains⟩ := checkColor_nil_elim h3
  obtain ⟨uv, un, hu, hui, hun⟩ := checkMileage_nil_elim h4
  obtain ⟨col, hcol, hcolmem⟩ := colorOfName_some hcontains
  unfold carFromDict at hf
  rw [hm, hp, hcs, hu] at hf
  rcases checkComponents_nil_elim h5 with ⟨xs, hx, hall⟩ | ⟨s, hx, hall⟩
  · obtain ⟨comps, hcomps, hcompinv⟩ := jStrList_of_all hall
    rw [hx] at hf
    simp only [pyStrVal, strListOfJ, Option.some_bind, hpi, hui, hcol, hcomps,
      Except.ok.injEq] at hf
    subst hf
    exact ⟨hmm, hpn, hcolmem, hun, hcompinv⟩
  · rw [hx] at hf
    simp only [pyStrVal, strListOfJ, Option.some_bind, hpi, hui, hcol,
      Except.ok.injEq] at hf
    subst hf
    refine ⟨hmm, hpn, hcolmem, hun, ?_⟩
    intro t ht
    rcases List.mem_map.mp ht with ⟨ch, hch, rfl⟩
    exact matchUpper_singleton (by
      rw [List.all_eq_true] at hall
      exact hall ch hch)

/-- Claim C3: every car in a collection successfully returned by
`CarsFileReader.get_cars` — in either loading mode — satisfies the data
model invariant: model of uppercase letters and whitespace, strictly
positive integer price and mileage, a color of the closed enum, and
components all matching the uppercase/whitespace pattern. -/
theorem getCars_invariant (stop : Bool) (data : List RawCar) (cars : List Car)
    (h : getCars stop data = .ok cars) : ∀ c ∈ cars, carInv c := by
  induction data generalizing cars with
  | nil =>
      unfold getCars at h
      cases h
      intro c hc
      exact absurd hc (List.not_mem_nil c)
  | cons d rest ih =>
      unfold getCars at h
      cases hv : carValidate d with
      | error e =>
          rw [hv] at h
          simp at h
      | ok pr =>
          rw [hv] at h
          rcases pr with ⟨b, errs⟩
          cases b with
          | true =>
              simp only [if_true] at h
              cases hf : carFromDict d with
              | error e =>
                  rw [hf] at h
                  simp at h
              | ok c0 =>
                  rw [hf] at h
                  cases hrest : getCars stop rest with
                  | error e =>
                      rw [hrest] at h
                      simp [Except.map] at h
                  | ok cs =>
                      rw [hrest] at h
                      simp only [Except.map] at h
                      cases h
                      intro c hc
                      rcases List.mem_cons.mp hc with rfl | hc
                      · exact fromDict_inv hv hf
                      · exact ih cs hrest c hc
          | false =>
              simp only [Bool.false_eq_true, if_false] at h
              cases stop with
              | true => simp at h
              | false => exact ih cars h

/-- Witness for C3: loading a concrete valid record yields a car, and
that car satisfies the invariant. -/
theorem getCars_invariant_witness :
    getCars true [sampleRawCar] = .ok [⟨"ABC", 100, .RED, 5, ["ABS", "LED"]⟩] ∧
    ∀ c ∈ [(⟨"ABC", 100, .RED, 5, ["ABS", "LED"]⟩ : Car)], carInv c :=
  ⟨by decide, getCars_invariant true [sampleRawCar] _ (by decide)⟩

end CarsService

namespace EventsService

open CarsService (foldl_max_init_le foldl_max_mem_le foldl_max_mem)

theorem mem_bump_keys : ∀ (acc : List (String × Nat)) (s s2 : String),
    s2 ∈ (bumpCount acc s).map Prod.fst ↔ s2 ∈ acc.map Prod.fst ∨ s2 = s := by
  intro acc
  induction acc with
  | nil =>
      intro s s2
      simp [bumpCount]
  | cons p rest ih =>
      intro s s2
      rcases p with ⟨t, c⟩
      simp only [bumpCount]
      by_cases hts : t = s
      · rw [if_pos hts]
        subst hts
        simp only [List.map_cons, List.mem_cons]
        tauto
      · rw [if_neg hts]
        simp only [List.map_cons, List.mem_cons, ih s s2]
        tauto

theorem bump_keys_nodup : ∀ (acc : List (String × Nat)) (s : String),
    (acc.map Prod.fst).Nodup → ((bumpCount acc s).map Prod.fst).Nodup := by
  intro acc
  induction acc with
  | nil =>
      intro s _
      simp [bumpCount]
  | cons p rest ih =>
      intro s h
      rcases p with ⟨t, c⟩
      simp only [List.map_cons, List.nodup_cons] at h
      obtain ⟨ht, hrest⟩ := h
      simp only [bumpCount]
      by_cases hts : t = s
      · rw [if_pos hts]
        simp only [List.map_cons, List.nodup_cons]
        exact ⟨ht, hrest⟩
      · rw [if_neg hts]
        simp only [List.map_cons, List.nodup_cons]
        refine ⟨?_, ih s hrest⟩
        rw [mem_bump_keys rest s t]
        intro hc
        rcases hc with hc | hc
        · exact ht hc
        · exact hts hc

theorem bump_val (s : String) : ∀ (acc : List (String × Nat)) (processed : List String),
    (acc.map Prod.fst).Nodup →
    (s ∉ acc.map Prod.fst → s ∉ processed) →
    (∀ p ∈ acc, p.2 = processed.count p.1) →
    ∀ p ∈ bumpCount acc s, p.2 = (processed ++ [s]).count p.1 := by
  intro acc
  induction acc with
  | nil =>
      intro processed _ hnot _ p hp
      simp only [bumpCount, List.mem_singleton] at hp
      subst hp
      have h0 : processed.count s = 0 := by
        rw [List.count_eq_zero]
        exact hnot (by simp)
      simp [List.count_append, h0]
  | cons q rest ih =>
      intro processed hnodup hnot hval p hp
      rcases q with ⟨t, c⟩
      simp only [List.map_cons, List.nodup_cons] at hnodup
      obtain ⟨ht, hrest⟩ := hnodup
      simp only [bumpCount] at hp
      by_cases hts : t = s
      · rw [if_pos hts] at hp
        subst hts
        rcases List.mem_cons.mp hp with rfl | hp
        · have hc : c = processed.count t := hval (t, c) (List.mem_cons_self _ _)
          simp [List.count_append, hc]
        · have hv : p.2 = processed.count p.1 := hval p (List.mem_cons_of_mem _ hp)
          have hne : p.1 ≠ t := by
            intro he
            apply ht
            rw [← he]
            exact List.mem_map_of_mem Prod.fst hp
          have h0 : ([t] : List String).count p.1 = 0 := by
            rw [List.count_eq_zero]
            simp [hne]
          rw [hv, List.count_append, h0]
          simp
      · rw [if_neg hts] at hp
        rcases List.mem_cons.mp hp with rfl | hp
        · have hc : c = processed.count t := hval (t, c) (List.mem_cons_self _ _)
          have h0 : ([s] : List String).count t = 0 := by
            rw [List.count_eq_zero]
            simp only [List.mem_singleton]
            exact hts
          rw [List.count_append, h0]
          simpa using hc
        · refine ih processed hrest ?_ ?_ p hp
          · intro hs
            apply hnot
            simp only [List.map_cons, List.mem_cons]
            intro hcon
            rcases hcon with hcon | hcon
            · exact hts hcon.symm
            · exact hs hcon
          · intro q hq
            exact hval q (List.mem_cons_of_mem _ hq)

theorem counter_aux : ∀ (l : List String) (acc : List (String × Nat)) (processed : List String),
    (acc.map Prod.fst).Nodup →
    (∀ s, s ∈ acc.map Prod.fst ↔ s ∈ processed) →
    (∀ p ∈ acc, p.2 = processed.count p.1) →
    ((l.foldl bumpCount acc).map Prod.fst).Nodup ∧
    (∀ s, s ∈ (l.foldl bumpCount acc).map Prod.fst ↔ s ∈ processed ++ l) ∧
    (∀ p ∈ l.foldl bumpCount acc, p.2 = (processed ++ l).count p.1) := by
  intro l
  induction l with
  | nil =>
      intro acc processed h1 h2 h3
      simp only [List.foldl_nil, List.append_nil]
      exact ⟨h1, h2, h3⟩
  | cons s rest ih =>
      intro acc processed h1 h2 h3
      have h2s : s ∉ acc.map Prod.fst → s ∉ processed := fun hn hin => hn ((h2 s).mpr hin)
      have step := ih (bumpCount acc s) (processed ++ [s])
        (bump_keys_nodup acc s h1)
        (by
          intro t
          rw [mem_bump_keys acc s t, h2 t]
          simp [List.mem_append])
        (bump_val s acc processed h1 h2s h3)
      rw [List.foldl_cons]
      have heq : (processed ++ [s]) ++ rest = processed ++ s :: rest := by simp
      refine ⟨step.1, ?_, ?_⟩
      · intro t
        rw [step.2.1 t, heq]
      · intro p hp
        have hv := step.2.2 p hp
        rw [heq] at hv
        exact hv

theorem counterOf_spec (l : List String) :
    ((counterOf l).map Prod.fst).Nodup ∧
    (∀ s, s ∈ (counterOf l).map Prod.fst ↔ s ∈ l) ∧
    (∀ p ∈ counterOf l, p.2 = l.count p.1) := by
  have h := counter_aux l [] [] (by simp) (by simp) (by simp)
  simpa using h

/-- Claim C6: `get_most_common_date` fails with an error when the held
event collection is empty; on every non-empty collection it returns a
duplicate-free list containing exactly the formatted date strings whose
occurrence count among the formatted event dates equals the maximum
count, together with that (attained, upper-bounding) maximum count. -/
theorem getMostCommonDate_spec (events : List Event) (fmt : PyDateTime → String) :
    (events = [] → getMostCommonDate events fmt = .error .valueError) ∧
    (events ≠ [] → ∃ dates m,
      getMostCommonDate events fmt = .ok (dates, m) ∧
      dates.Nodup ∧
      (∀ s, s ∈ dates ↔ (events.map (fun e => fmt e.date)).count s = m) ∧
      (∀ s ∈ events.map (fun e => fmt e.date),
        (events.map (fun e => fmt e.date)).count s ≤ m) ∧
      (∃ s ∈ events.map (fun e => fmt e.date),
        (events.map (fun e => fmt e.date)).count s = m)) := by
  constructor
  · intro h
    subst h
    rfl
  · intro h
    have hne : ¬ events.isEmpty = true := by
      cases events with
      | nil => exact absurd rfl h
      | cons e rest => simp
    obtain ⟨hnodup, hkeys, hvals⟩ := counterOf_spec (events.map (fun e => fmt e.date))
    refine ⟨((counterOf (events.map (fun e => fmt e.date))).filter
        (fun p => p.2 = ((counterOf (events.map (fun e => fmt e.date))).map
          (fun p => p.2)).foldl max 0)).map (fun p => p.1),
      ((counterOf (events.map (fun e => fmt e.date))).map (fun p => p.2)).foldl max 0,
      ?_, ?_, ?_, ?_, ?_⟩
    · unfold getMostCommonDate
      rw [if_neg hne]
    · exact List.Nodup.sublist ((List.filter_sublist _).map _) hnodup
    · intro s
      constructor
      · intro hs
        rcases List.mem_map.mp hs with ⟨p, hpmem, hp1⟩
        rcases List.mem_filter.mp hpmem with ⟨hpc, hpm⟩
        have hv := hvals p hpc
        rw [← hp1, ← hv]
        simpa using hpm
      · intro hs
        have hm1 : 1 ≤ ((counterOf (events.map (fun e => fmt e.date))).map
            (fun p => p.2)).foldl max 0 := by
          obtain ⟨e0, he0⟩ := List.exists_mem_of_ne_nil events h
          have hs0 : fmt e0.date ∈ events.map (fun e => fmt e.date) :=
            List.mem_map_of_mem _ he0
          have hk0 := (hkeys (fmt e0.date)).mpr hs0
          rcases List.mem_map.mp hk0 with ⟨p0, hp0mem, hp01⟩
          have hv0 := hvals p0 hp0mem
          have hc0 : 0 < (events.map (fun e => fmt e.date)).count (fmt e0.date) :=
            List.count_pos_iff.mpr hs0
          have hple : p0.2 ≤ ((counterOf (events.map (fun e => fmt e.date))).map
              (fun p => p.2)).foldl max 0 :=
            foldl_max_mem_le _ 0 p0.2 (List.mem_map_of_mem _ hp0mem)
          rw [hv0, hp01] at hple
          omega
        have hsfl : s ∈ events.map (fun e => fmt e.date) := by
          have : 0 < (events.map (fun e => fmt e.date)).count s := by omega
          exact List.count_pos_iff.mp this
        have hk := (hkeys s).mpr hsfl
        rcases List.mem_map.mp hk with ⟨p, hpmem, hp1⟩
        have hv := hvals p hpmem
        refine List.mem_map.mpr ⟨p, List.mem_filter.mpr ⟨hpmem, ?_⟩, hp1⟩
        simp only [decide_eq_true_eq]
        rw [hv, hp1, hs]
    · intro s hs
      have hk := (hkeys s).mpr hs
      rcases List.mem_map.mp hk with ⟨p, hpmem, hp1⟩
      have hv := hvals p hpmem
      have hple : p.2 ≤ ((counterOf (events.map (fun e => fmt e.date))).map
          (fun p => p.2)).foldl max 0 :=
        foldl_max_mem_le _ 0 p.2 (List.mem_map_of_mem _ hpmem)
      rw [hv, hp1] at hple
      exact hple
    · rcases foldl_max_mem ((counterOf (events.map (fun e => fmt e.date))).map
          (fun p => p.2)) 0 with hz | hmem
      · obtain ⟨e0, he0⟩ := List.exists_mem_of_ne_nil events h
        have hs0 : fmt e0.date ∈ events.map (fun e => fmt e.date) :=
          List.mem_map_of_mem _ he0
        have hk0 := (hkeys (fmt e0.date)).mpr hs0
        rcases List.mem_map.mp hk0 with ⟨p0, hp0mem, hp01⟩
        have hv0 := hvals p0 hp0mem
        have hc0 : 0 < (events.map (fun e => fmt e.date)).count (fmt e0.date) :=
          List.count_pos_iff.mpr hs0
        have hple : p0.2 ≤ ((counterOf (events.map (fun e => fmt e.date))).map
            (fun p => p.2)).foldl max 0 :=
          foldl_max_mem_le _ 0 p0.2 (List.mem_map_of_mem _ hp0mem)
        rw [hv0, hp01] at hple
        omega
      · rcases List.mem_map.mp hmem with ⟨p, hpmem, hp2⟩
        refine ⟨p.1, (hkeys p.1).mp (List.mem_map_of_mem _ hpmem), ?_⟩
        rw [← hvals p hpmem]
        exact hp2

/-- Witness for C6: on the sample events with the fixed date format, the
most common date data is as the spec example states. -/
theorem getMostCommonDate_witness :
    specEvents ≠ [] ∧
    (∃ dates m, getMostCommonDate specEvents strftimeDMY = .ok (dates, m) ∧
      dates.Nodup ∧
      (∀ s, s ∈ dates ↔ (specEvents.map (fun e => strftimeDMY e.date)).count s = m) ∧
      (∀ s ∈ specEvents.map (fun e => strftimeDMY e.date),
        (specEvents.map (fun e => strftimeDMY e.date)).count s ≤ m) ∧
      (∃ s ∈ specEvents.map (fun e => strftimeDMY e.date),
        (specEvents.map (fun e => strftimeDMY e.date)).count s = m)) :=
  ⟨by decide, (getMostCommonDate_spec specEvents strftimeDMY).2 (by decide)⟩

end EventsService

namespace CarsService

theorem maxPriceFrom_eq (c0 : Car) (rest : List Car) :
    maxPriceFrom c0 rest = (rest.map Car.price).foldl max c0.price := by
  unfold maxPriceFrom
  rw [List.foldl_map]

theorem maxPriceFrom_head_le (c0 : Car) (rest : List Car) :
    c0.price ≤ maxPriceFrom c0 rest := by
  rw [maxPriceFrom_eq]
  exact foldl_max_init_le _ _

theorem maxPriceFrom_mem_le (c0 : Car) (rest : List Car) :
    ∀ x ∈ rest, x.price ≤ maxPriceFrom c0 rest := by
  intro x hx
  rw [maxPriceFrom_eq]
  exact foldl_max_mem_le _ _ _ (List.mem_map_of_mem _ hx)

theorem maxPriceFrom_attained (c0 : Car) (rest : List Car) :
    ∃ y ∈ c0 :: rest, y.price = maxPriceFrom c0 rest := by
  rw [maxPriceFrom_eq]
  rcases foldl_max_mem (rest.map Car.price) c0.price with h | h
  · exact ⟨c0, List.mem_cons_self _ _, h.symm⟩
  · rcases List.mem_map.mp h with ⟨y, hy, hyp⟩
    exact ⟨y, List.mem_cons_of_mem _ hy, hyp⟩

theorem maxPriceFrom_append (c0 : Car) (rest : List Car) (c : Car) :
    maxPriceFrom c0 (rest ++ [c]) = max (maxPriceFrom c0 rest) c.price := by
  unfold maxPriceFrom
  rw [List.foldl_append]
  rfl

theorem filter_model_append (ps : List Car) (c : Car) (mn : String) :
    (ps ++ [c]).filter (fun x => x.model = mn)
      = ps.filter (fun x => x.model = mn) ++ (if c.model = mn then [c] else []) := by
  rw [List.filter_append]
  congr 1
  by_cases h : c.model = mn
  · simp [h]
  · simp [h]

theorem filter_model_nil {mn : String} {ps : List Car} (h : mn ∉ ps.map Car.model) :
    ps.filter (fun x => x.model = mn) = [] := by
  rw [List.filter_eq_nil_iff]
  intro x hx
  simp only [decide_eq_true_eq]
  intro he
  exact h (he ▸ List.mem_map_of_mem Car.model hx)

theorem bestOf_cons_spec {mn : String} {ps : List Car} {c0 : Car} {rest0 : List Car}
    (hpm : ps.filter (fun x => x.model = mn) = c0 :: rest0) :
    bestOf mn ps = (c0 :: rest0).filter (fun x => x.price = maxPriceFrom c0 rest0) := by
  unfold bestOf
  rw [hpm]

theorem bestOf_append_new {ps : List Car} {c : Car} (h : c.model ∉ ps.map Car.model) :
    bestOf c.model (ps ++ [c]) = [c] := by
  unfold bestOf
  rw [filter_model_append, filter_model_nil h, if_pos rfl]
  simp [maxPriceFrom]

theorem bestOf_ne_nil {mn : String} {ps : List Car} (h : mn ∈ ps.map Car.model) :
    ∃ b0 bs, bestOf mn ps = b0 :: bs ∧
      (∀ x ∈ b0 :: bs, x.price = b0.price) ∧
      (∃ c0 rest0, ps.filter (fun x => x.model = mn) = c0 :: rest0 ∧
        b0.price = maxPriceFrom c0 rest0) := by
  rcases List.mem_map.mp h with ⟨y, hy, hym⟩
  have hyf : y ∈ ps.filter (fun x => x.model = mn) :=
    List.mem_filter.mpr ⟨hy, by simp [hym]⟩
  cases hpm : ps.filter (fun x => x.model = mn) with
  | nil =>
      rw [hpm] at hyf
      exact absurd hyf (List.not_mem_nil y)
  | cons c0 rest0 =>
      obtain ⟨z, hz, hzp⟩ := maxPriceFrom_attained c0 rest0
      have hzf : z ∈ (c0 :: rest0).filter (fun x => x.price = maxPriceFrom c0 rest0) :=
        List.mem_filter.mpr ⟨hz, by simp [hzp]⟩
      have hbo := bestOf_cons_spec hpm
      cases hfil : (c0 :: rest0).filter (fun x => x.price = maxPriceFrom c0 rest0) with
      | nil =>
          rw [hfil] at hzf
          exact absurd hzf (List.not_mem_nil z)
      | cons b0 bs =>
          have hb0 : b0.price = maxPriceFrom c0 rest0 := by
            have hmem : b0 ∈ (c0 :: rest0).filter
                (fun x => x.price = maxPriceFrom c0 rest0) := by
              rw [hfil]
              exact List.mem_cons_self _ _
            simpa using List.of_mem_filter hmem
          refine ⟨b0, bs, by rw [hbo, hfil], ?_, c0, rest0, rfl, hb0⟩
          intro x hx
          rw [← hfil] at hx
          have hxp := List.of_mem_filter hx
          simp only [decide_eq_true_eq] at hxp
          rw [hxp, hb0]

theorem bestOf_append_gt {ps : List Car} {c : Car} {c0 : Car} {rest0 : List Car}
    (hpm : ps.filter (fun x => x.model = c.model) = c0 :: rest0)
    (hgt : maxPriceFrom c0 rest0 < c.price) :
    bestOf c.model (ps ++ [c]) = [c] := by
  have hpm2 : (ps ++ [c]).filter (fun x => x.model = c.model) = c0 :: (rest0 ++ [c]) := by
    rw [filter_model_append, hpm, if_pos rfl]
    rfl
  rw [bestOf_cons_spec hpm2]
  simp only [maxPriceFrom_append, max_eq_right (le_of_lt hgt)]
  rw [show c0 :: (rest0 ++ [c]) = (c0 :: rest0) ++ [c] from rfl, List.filter_append]
  have h1 : (c0 :: rest0).filter (fun x => decide (x.price = c.price)) = [] := by
    rw [List.filter_eq_nil_iff]
    intro x hx
    simp only [decide_eq_true_eq]
    intro he
    have hle : x.price ≤ maxPriceFrom c0 rest0 := by
      rcases List.mem_cons.mp hx with rfl | hx
      · exact maxPriceFrom_head_le _ _
      · exact maxPriceFrom_mem_le _ _ x hx
    omega
  rw [h1]
  simp

theorem bestOf_append_tie {ps : List Car} {c : Car} {c0 : Car} {rest0 : List Car}
    (hpm : ps.filter (fun x => x.model = c.model) = c0 :: rest0)
    (heq : c.price = maxPriceFrom c0 rest0) :
    bestOf c.model (ps ++ [c]) = bestOf c.model ps ++ [c] := by
  have hpm2 : (ps ++ [c]).filter (fun x => x.model = c.model) = c0 :: (rest0 ++ [c]) := by
    rw [filter_model_append, hpm, if_pos rfl]
    rfl
  rw [bestOf_cons_spec hpm2, bestOf_cons_spec hpm]
  simp only [maxPriceFrom_append, ← heq, max_self]
  rw [show c0 :: (rest0 ++ [c]) = (c0 :: rest0) ++ [c] from rfl, List.filter_append]
  simp

theorem bestOf_append_lt {ps : List Car} {c : Car} {c0 : Car} {rest0 : List Car}
    (hpm : ps.filter (fun x => x.model = c.model) = c0 :: rest0)
    (hlt : c.price < maxPriceFrom c0 rest0) :
    bestOf c.model (ps ++ [c]) = bestOf c.model ps := by
  have hpm2 : (ps ++ [c]).filter (fun x => x.model = c.model) = c0 :: (rest0 ++ [c]) := by
    rw [filter_model_append, hpm, if_pos rfl]
    rfl
  rw [bestOf_cons_spec hpm2, bestOf_cons_spec hpm]
  simp only [maxPriceFrom_append, max_eq_left (le_of_lt hlt)]
  rw [show c0 :: (rest0 ++ [c]) = (c0 :: rest0) ++ [c] from rfl, List.filter_append]
  have h1 : ([c] : List Car).filter
      (fun x => decide (x.price = maxPriceFrom c0 rest0)) = [] := by
    rw [List.filter_eq_nil_iff]
    intro x hx
    simp only [List.mem_singleton] at hx
    subst hx
    simp only [decide_eq_true_eq]
    omega
  rw [h1, List.append_nil]

theorem bestOf_append_ne {mn : String} {ps : List Car} {c : Car} (h : ¬ c.model = mn) :
    bestOf mn (ps ++ [c]) = bestOf mn ps := by
  unfold bestOf
  rw [filter_model_append, if_neg h, List.append_nil]

end CarsService

namespace CarsService

theorem mem_mceInsert_keys : ∀ (acc : List (String × List Car)) (c : Car) (mn : String),
    mn ∈ (mceInsert c acc).map Prod.fst ↔ mn ∈ acc.map Prod.fst ∨ mn = c.model := by
  intro acc
  induction acc with
  | nil =>
      intro c mn
      simp [mceInsert]
  | cons p rest ih =>
      intro c mn
      rcases p with ⟨t, b⟩
      simp only [mceInsert]
      by_cases hts : t = c.model
      · rw [if_pos hts]
        subst hts
        cases b with
        | nil =>
            simp only [List.map_cons, List.mem_cons]
            tauto
        | cons b0 bs =>
            simp only
            by_cases h1 : b0.price < c.price
            · rw [if_pos h1]
              simp only [List.map_cons, List.mem_cons]
              tauto
            · rw [if_neg h1]
              by_cases h2 : c.price = b0.price
              · rw [if_pos h2]
                simp only [List.map_cons, List.mem_cons]
                tauto
              · rw [if_neg h2]
                simp only [List.map_cons, List.mem_cons]
                tauto
      · rw [if_neg hts]
        simp only [List.map_cons, List.mem_cons, ih c mn]
        tauto

theorem mceInsert_keys_nodup : ∀ (acc : List (String × List Car)) (c : Car),
    (acc.map Prod.fst).Nodup → ((mceInsert c acc).map Prod.fst).Nodup := by
  intro acc
  induction acc with
  | nil =>
      intro c _
      simp [mceInsert]
  | cons p rest ih =>
      intro c h
      rcases p with ⟨t, b⟩
      simp only [List.map_cons, List.nodup_cons] at h
      obtain ⟨ht, hrest⟩ := h
      simp only [mceInsert]
      by_cases hts : t = c.model
      · rw [if_pos hts]
        subst hts
        cases b with
        | nil =>
            simp only [List.map_cons, List.nodup_cons]
            exact ⟨ht, hrest⟩
        | cons b0 bs =>
            simp only
            by_cases h1 : b0.price < c.price
            · rw [if_pos h1]
              simp only [List.map_cons, List.nodup_cons]
              exact ⟨ht, hrest⟩
            · rw [if_neg h1]
              by_cases h2 : c.price = b0.price
              · rw [if_pos h2]
                simp only [List.map_cons, List.nodup_cons]
                exact ⟨ht, hrest⟩
              · rw [if_neg h2]
                simp only [List.map_cons, List.nodup_cons]
                exact ⟨ht, hrest⟩
      · rw [if_neg hts]
        simp only [List.map_cons, List.nodup_cons]
        refine ⟨?_, ih c hrest⟩
        rw [mem_mceInsert_keys rest c t]
        intro hc
        rcases hc with hc | hc
        · exact ht hc
        · exact hts hc

theorem mceInsert_val (c : Car) : ∀ (acc : List (String × List Car)) (ps : List Car),
    (acc.map Prod.fst).Nodup →
    (∀ mn, mn ∈ acc.map Prod.fst → mn ∈ ps.map Car.model) →
    (c.model ∉ acc.map Prod.fst → c.model ∉ ps.map Car.model) →
    (∀ mn l, (mn, l) ∈ acc → l = bestOf mn ps) →
    ∀ mn l, (mn, l) ∈ mceInsert c acc → l = bestOf mn (ps ++ [c]) := by
  intro acc
  induction acc with
  | nil =>
      intro ps _ _ hnew _ mn l hml
      simp only [mceInsert, List.mem_singleton, Prod.mk.injEq] at hml
      obtain ⟨rfl, rfl⟩ := hml
      exact (bestOf_append_new (hnew (by simp))).symm
  | cons p rest ih =>
      intro ps hnodup hmem hnew hval mn l hml
      rcases p with ⟨t, b⟩
      simp only [List.map_cons, List.nodup_cons] at hnodup
      obtain ⟨ht, hrest⟩ := hnodup
      simp only [mceInsert] at hml
      by_cases hts : t = c.model
      · rw [if_pos hts] at hml
        subst hts
        have htmem : c.model ∈ ps.map Car.model := hmem c.model (by simp)
        obtain ⟨b0, bs, hbo, _hball, c0, rest0, hpm, hb0M⟩ := bestOf_ne_nil htmem
        have hbval : b = bestOf c.model ps := hval c.model b (List.mem_cons_self _ _)
        have hrestcase : ∀ mn l, (mn, l) ∈ rest → l = bestOf mn (ps ++ [c]) := by
          intro mn l hl
          have hmn : ¬ c.model = mn := by
            intro he
            apply ht
            rw [he]
            exact List.mem_map_of_mem Prod.fst hl
          rw [hval mn l (List.mem_cons_of_mem _ hl)]
          exact (bestOf_append_ne hmn).symm
        cases b with
        | nil =>
            rw [hbo] at hbval
            exact absurd hbval.symm (List.cons_ne_nil b0 bs)
        | cons q0 qs =>
            simp only at hml
            have hq0 : q0 = b0 := by
              rw [hbo] at hbval
              exact ((List.cons.injEq q0 qs b0 bs).mp hbval).1
            have hqM : q0.price = maxPriceFrom c0 rest0 := by
              rw [hq0]
              exact hb0M
            by_cases h1 : q0.price < c.price
            · rw [if_pos h1] at hml
              rcases List.mem_cons.mp hml with hml | hml
              · rw [Prod.mk.injEq] at hml
                obtain ⟨rfl, rfl⟩ := hml
                exact (bestOf_append_gt hpm (by omega)).symm
              · exact hrestcase mn l hml
            · rw [if_neg h1] at hml
              by_cases h2 : c.price = q0.price
              · rw [if_pos h2] at hml
                rcases List.mem_cons.mp hml with hml | hml
                · rw [Prod.mk.injEq] at hml
                  obtain ⟨rfl, rfl⟩ := hml
                  rw [bestOf_append_tie hpm (by omega), ← hbval]
                · exact hrestcase mn l hml
              · rw [if_neg h2] at hml
                rcases List.mem_cons.mp hml with hml | hml
                · rw [Prod.mk.injEq] at hml
                  obtain ⟨rfl, rfl⟩ := hml
                  rw [bestOf_append_lt hpm (by omega), ← hbval]

                · exact hrestcase mn l hml
      · rw [if_neg hts] at hml
        rcases List.mem_cons.mp hml with hml | hml
        · rw [Prod.mk.injEq] at hml
          obtain ⟨hmt, hlb⟩ := hml
          rw [hlb, hval t b (List.mem_cons_self _ _), hmt]
          exact (bestOf_append_ne (fun he => hts he.symm)).symm
        · refine ih ps hrest ?_ ?_ ?_ mn l hml
          · intro mn2 h2
            exact hmem mn2 (List.mem_cons_of_mem _ h2)
          · intro h2
            apply hnew
            simp only [List.map_cons, List.mem_cons]
            intro hc
            rcases hc with hc | hc
            · exact hts hc.symm
            · exact h2 hc
          · intro mn2 l2 h2
            exact hval mn2 l2 (List.mem_cons_of_mem _ h2)

theorem mceFold_aux : ∀ (cars : List Car) (acc : List (String × List Car)) (ps : List Car),
    (acc.map Prod.fst).Nodup →
    (∀ mn, mn ∈ acc.map Prod.fst ↔ mn ∈ ps.map Car.model) →
    (∀ mn l, (mn, l) ∈ acc → l = bestOf mn ps) →
    ((cars.foldl (fun a x => mceInsert x a) acc).map Prod.fst).Nodup ∧
    (∀ mn, mn ∈ (cars.foldl (fun a x => mceInsert x a) acc).map Prod.fst
        ↔ mn ∈ (ps ++ cars).map Car.model) ∧
    (∀ mn l, (mn, l) ∈ cars.foldl (fun a x => mceInsert x a) acc →
        l = bestOf mn (ps ++ cars)) := by
  intro cars
  induction cars with
  | nil =>
      intro acc ps h1 h2 h3
      simp only [List.foldl_nil, List.append_nil]
      exact ⟨h1, h2, h3⟩
  | cons c rest ih =>
      intro acc ps h1 h2 h3
      have step := ih (mceInsert c acc) (ps ++ [c])
        (mceInsert_keys_nodup acc c h1)
        (by
          intro mn
          rw [mem_mceInsert_keys acc c mn, h2 mn]
          simp only [List.map_append, List.mem_append, List.map_cons, List.map_nil,
            List.mem_singleton])
        (mceInsert_val c acc ps h1
          (fun mn hm => (h2 mn).mp hm)
          (fun hm hin => hm ((h2 c.model).mpr hin))
          h3)
      rw [List.foldl_cons]
      have heq : (ps ++ [c]) ++ rest = ps ++ c :: rest := by simp
      rw [heq] at step
      exact step

/-- Claim C5: `get_model_cars_most_expensive` returns a mapping whose key
set is exactly the set of distinct models, where each model maps to
precisely those of its cars whose price equals the maximum price observed
for that model (all tied maxima, in encounter order — the `bestOf`
characterisation), with duplicate-free keys ordered by model name,
descending exactly when the flag is set. -/
theorem getModelCarsMostExpensive_spec (cars : List Car) (descending : Bool) :
    (∀ mn, (∃ l, (mn, l) ∈ getModelCarsMostExpensive cars descending)
        ↔ mn ∈ cars.map Car.model) ∧
    (∀ mn l, (mn, l) ∈ getModelCarsMostExpensive cars descending → l = bestOf mn cars) ∧
    ((getModelCarsMostExpensive cars descending).map Prod.fst).Nodup ∧
    ((getModelCarsMostExpensive cars descending).map Prod.fst).Pairwise
      (keyOrd descending) := by
  obtain ⟨hnodup, hkeys, hvals⟩ := by
    have h := mceFold_aux cars [] [] (by simp) (by simp) (by simp)
    rw [List.nil_append] at h
    exact h
  have hunf : getModelCarsMostExpensive cars descending
      = pySorted (modelPairLt descending) (mceFold cars) := rfl
  have hperm : (getModelCarsMostExpensive cars descending).Perm (mceFold cars) := by
    rw [hunf]
    exact pySorted_perm _ _
  refine ⟨?_, ?_, ?_, ?_⟩
  · intro mn
    constructor
    · intro ⟨l, hl⟩
      have hl2 : (mn, l) ∈ mceFold cars := hperm.mem_iff.mp hl
      exact (hkeys mn).mp (List.mem_map_of_mem Prod.fst hl2)
    · intro hm
      rcases List.mem_map.mp ((hkeys mn).mpr hm) with ⟨p, hp, hp1⟩
      exact ⟨p.2, hperm.mem_iff.mpr (by rw [← hp1]; exact hp)⟩
  · intro mn l hl
    exact hvals mn l (hperm.mem_iff.mp hl)
  · exact ((hperm.map Prod.fst).nodup_iff).mpr hnodup
  · have hs := pySorted_sorted (modelPairLt_asym descending) (modelPairLt_tr1 descending)
      (mceFold cars)
    rw [hunf]
    rw [List.pairwise_map]
    refine hs.imp ?_
    intro p q h
    cases descending with
    | false => exact h
    | true => exact h

/-- Witness for C5: on the sample collection (model X with prices
100, 100, 50 and model A with price 7), the descending mapping keeps both
tied price-100 cars of X, in encounter order, with keys X before A. -/
theorem getModelCarsMostExpensive_witness :
    getModelCarsMostExpensive sampleCars true
      = [("X", [⟨"X", 100, .RED, 6000, ["ABS"]⟩, ⟨"X", 100, .BLACK, 2, []⟩]),
         ("A", [⟨"A", 7, .GREEN, 4000, []⟩])] ∧
    ((∀ mn, (∃ l, (mn, l) ∈ getModelCarsMostExpensive sampleCars true)
        ↔ mn ∈ sampleCars.map Car.model) ∧
     (∀ mn l, (mn, l) ∈ getModelCarsMostExpensive sampleCars true → l = bestOf mn sampleCars) ∧
     ((getModelCarsMostExpensive sampleCars true).map Prod.fst).Nodup ∧
     ((getModelCarsMostExpensive sampleCars true).map Prod.fst).Pairwise (keyOrd true)) :=
  ⟨by decide, getModelCarsMostExpensive_spec sampleCars true⟩

end CarsService

namespace EventsService

theorem isPyWs_digit {c : Char} (h1 : 48 ≤ c.toNat) (h2 : c.toNat ≤ 57) :
    isPyWs c = false := by
  cases h : isPyWs c
  · rfl
  · exfalso
    simp only [isPyWs, Bool.or_eq_true, decide_eq_true_eq] at h
    rcases h with ((((h | h) | h) | h) | h) | h <;>
      (subst h; exact absurd h1 (by decide))

theorem parseDay_elim : ∀ {cs : List Char} {n : Nat} {r : List Char},
    parseDay cs = some (n, r) →
    1 ≤ n ∧ n ≤ 31 ∧ ∃ c0 pre, cs = (c0 :: pre) ++ r ∧ isPyWs c0 = false := by
  intro cs n r h
  match cs with
  | [] => exact absurd h (by simp [parseDay])
  | [c1] =>
      rw [parseDay] at h
      split at h
      · rename_i hc
        rw [Bool.and_eq_true, decide_eq_true_eq, decide_eq_true_eq] at hc
        rw [Option.some.injEq, Prod.mk.injEq] at h
        obtain ⟨rfl, rfl⟩ := h
        exact ⟨by simp only [digitVal]; omega, by simp only [digitVal]; omega,
          c1, [], by simp, isPyWs_digit (by omega) hc.2⟩
      · exact absurd h (by simp)
  | c1 :: c2 :: rest =>
      rw [parseDay] at h
      split at h
      · rename_i hc
        rw [Bool.and_eq_true, Bool.or_eq_true, decide_eq_true_eq, decide_eq_true_eq,
          decide_eq_true_eq] at hc
        obtain ⟨rfl, hc2⟩ := hc
        rw [Option.some.injEq, Prod.mk.injEq] at h
        obtain ⟨rfl, rfl⟩ := h
        have h2 : c2.toNat = 48 ∨ c2.toNat = 49 := by
          rcases hc2 with rfl | rfl
          · exact Or.inl (by decide)
          · exact Or.inr (by decide)
        have h3 : ('3').toNat = 51 := by decide
        refine ⟨?_, ?_, '3', [c2], rfl, by decide⟩
        · simp only [digitVal]
          omega
        · simp only [digitVal]
          omega
      · split at h
        · rename_i hc
          rw [Bool.and_eq_true, Bool.or_eq_true, decide_eq_true_eq, decide_eq_true_eq] at hc
          obtain ⟨hc1, hc2⟩ := hc
          simp only [isDig, Bool.and_eq_true, decide_eq_true_eq] at hc2
          rw [Option.some.injEq, Prod.mk.injEq] at h
          obtain ⟨rfl, rfl⟩ := h
          have h1v : c1.toNat = 49 ∨ c1.toNat = 50 := by
            rcases hc1 with rfl | rfl
            · exact Or.inl (by decide)
            · exact Or.inr (by decide)
          refine ⟨?_, ?_, c1, [c2], rfl, isPyWs_digit (by omega) (by omega)⟩
          · simp only [digitVal]
            omega
          · simp only [digitVal]
            omega
        · split at h
          · rename_i hc
            rw [Bool.and_eq_true, decide_eq_true_eq, decide_eq_true_eq] at hc
            rw [Option.some.injEq, Prod.mk.injEq] at h
            obtain ⟨rfl, rfl⟩ := h
            refine ⟨?_, ?_, c1, [], by simp, isPyWs_digit (by omega) hc.2⟩
            · simp only [digitVal]
              omega
            · simp only [digitVal]
              omega
          · split at h
            · rename_i hc
              rw [Bool.and_eq_true, Bool.and_eq_true, decide_eq_true_eq,
                decide_eq_true_eq, decide_eq_true_eq] at hc
              obtain ⟨⟨rfl, hc2⟩, hc3⟩ := hc
              rw [Option.some.injEq, Prod.mk.injEq] at h
              obtain ⟨rfl, rfl⟩ := h
              refine ⟨?_, ?_, '0', [c2], rfl, by decide⟩
              · simp only [digitVal]
                omega
              · simp only [digitVal]
                omega
            · exact absurd h (by simp)

theorem parseMonth_elim : ∀ {cs : List Char} {n : Nat} {r : List Char},
    parseMonth cs = some (n, r) →
    1 ≤ n ∧ n ≤ 12 ∧ ∃ pre, cs = pre ++ r := by
  intro cs n r h
  match cs with
  | [] => exact absurd h (by simp [parseMonth])
  | [c1] =>
      rw [parseMonth] at h
      split at h
      · rename_i hc
        rw [Bool.and_eq_true, decide_eq_true_eq, decide_eq_true_eq] at hc
        rw [Option.some.injEq, Prod.mk.injEq] at h
        obtain ⟨rfl, rfl⟩ := h
        exact ⟨by simp only [digitVal]; omega, by simp only [digitVal]; omega,
          [c1], by simp⟩
      · exact absurd h (by simp)
  | c1 :: c2 :: rest =>
      rw [parseMonth] at h
      split at h
      · rename_i hc
        rw [Bool.and_eq_true, Bool.or_eq_true, Bool.or_eq_true, decide_eq_true_eq,
          decide_eq_true_eq, decide_eq_true_eq, decide_eq_true_eq] at hc
        obtain ⟨rfl, hc2⟩ := hc
        rw [Option.some.injEq, Prod.mk.injEq] at h
        obtain ⟨rfl, rfl⟩ := h
        have h2 : c2.toNat = 48 ∨ c2.toNat = 49 ∨ c2.toNat = 50 := by
          rcases hc2 with (rfl | rfl) | rfl
          · exact Or.inl (by decide)
          · exact Or.inr (Or.inl (by decide))
          · exact Or.inr (Or.inr (by decide))
        have h3 : ('1').toNat = 49 := by decide
        refine ⟨?_, ?_, ['1', c2], rfl⟩
        · simp only [digitVal]
          omega
        · simp only [digitVal]
          omega
      · split at h
        · rename_i hc
          rw [Bool.and_eq_true, Bool.and_eq_true, decide_eq_true_eq, decide_eq_true_eq,
            decide_eq_true_eq] at hc
          obtain ⟨⟨rfl, hc2⟩, hc3⟩ := hc
          rw [Option.some.injEq, Prod.mk.injEq] at h
          obtain ⟨rfl, rfl⟩ := h
          refine ⟨?_, ?_, ['0', c2], rfl⟩
          · simp only [digitVal]
            omega
          · simp only [digitVal]
            omega
        · split at h
          · rename_i hc
            rw [Bool.and_eq_true, decide_eq_true_eq, decide_eq_true_eq] at hc
            rw [Option.some.injEq, Prod.mk.injEq] at h
            obtain ⟨rfl, rfl⟩ := h
            refine ⟨?_, ?_, [c1], rfl⟩
            · simp only [digitVal]
              omega
            · simp only [digitVal]
              omega
          · exact absurd h (by simp)

theorem parseYear4_elim : ∀ {cs : List Char} {n : Nat} {r : List Char},
    parseYear4 cs = some (n, r) →
    n ≤ 9999 ∧ ∃ c1 c2 c3 c4, cs = c1 :: c2 :: c3 :: c4 :: r ∧ isDig c4 = true := by
  intro cs n r h
  match cs with
  | [] => exact absurd h (by simp [parseYear4])
  | [a] => exact absurd h (by simp [parseYear4])
  | [a, b] => exact absurd h (by simp [parseYear4])
  | [a, b, c] => exact absurd h (by simp [parseYear4])
  | a :: b :: c :: d :: rest =>
      rw [parseYear4] at h
      split at h
      · rename_i hc
        rw [Bool.and_eq_true, Bool.and_eq_true, Bool.and_eq_true] at hc
        obtain ⟨⟨⟨h1, h2⟩, h3⟩, h4⟩ := hc
        simp only [isDig, Bool.and_eq_true, decide_eq_true_eq] at h1 h2 h3 h4
        rw [Option.some.injEq, Prod.mk.injEq] at h
        obtain ⟨rfl, rfl⟩ := h
        refine ⟨?_, a, b, c, d, rfl, ?_⟩
        · simp only [digitVal]
          omega
        · simp only [isDig, Bool.and_eq_true, decide_eq_true_eq]
          omega
      · exact absurd h (by simp)

end EventsService

namespace EventsService

theorem string_mk_data (s : String) : (⟨s.data⟩ : String) = s := by
  cases s
  rfl

theorem dropTrailingWs_no_ws : ∀ l : List Char, (∀ c ∈ l, isPyWs c = false) →
    dropTrailingWs l = l := by
  intro l
  induction l with
  | nil => intro _; rfl
  | cons c cs ih =>
      intro h
      have hcs := ih (fun x hx => h x (List.mem_cons_of_mem c hx))
      have hc := h c (List.mem_cons_self c cs)
      rw [dropTrailingWs, hcs]
      cases cs with
      | nil => simp [hc]
      | cons x xs => rfl

theorem dropTrailingWs_append_nonws : ∀ (l : List Char) (c : Char), isPyWs c = false →
    dropTrailingWs (l ++ [c]) = l ++ [c] := by
  intro l
  induction l with
  | nil =>
      intro c hc
      simp only [List.nil_append]
      rw [dropTrailingWs, dropTrailingWs]
      simp [hc]
  | cons x xs ih =>
      intro c hc
      simp only [List.cons_append]
      rw [dropTrailingWs, ih c hc]
      cases hxc : xs ++ [c] with
      | nil => exact absurd hxc (by simp)
      | cons y ys => rfl

theorem stripChars_of_ends {l : List Char}
    (hhead : ∃ c0 t, l = c0 :: t ∧ isPyWs c0 = false)
    (hlast : ∃ init c4, l = init ++ [c4] ∧ isPyWs c4 = false) :
    stripChars l = l := by
  obtain ⟨c0, t, rfl, h0⟩ := hhead
  obtain ⟨init, c4, he, h4⟩ := hlast
  unfold stripChars
  rw [List.dropWhile_cons, if_neg (by simp [h0])]
  rw [he]
  exact dropTrailingWs_append_nonws init c4 h4

theorem stripChars_no_ws {l : List Char} (h : ∀ c ∈ l, isPyWs c = false) :
    stripChars l = l := by
  cases l with
  | nil => rfl
  | cons c cs =>
      unfold stripChars
      rw [List.dropWhile_cons, if_neg (by simp [h c (List.mem_cons_self c cs)])]
      exact dropTrailingWs_no_ws _ h

theorem dropWhile_ws_head : ∀ l : List Char,
    l.dropWhile isPyWs = [] ∨
      ∃ c cs, l.dropWhile isPyWs = c :: cs ∧ isPyWs c = false := by
  intro l
  induction l with
  | nil => exact Or.inl rfl
  | cons c cs ih =>
      rw [List.dropWhile_cons]
      by_cases hc : isPyWs c = true
      · rw [if_pos hc]
        exact ih
      · rw [if_neg hc]
        exact Or.inr ⟨c, cs, rfl, Bool.eq_false_iff.mpr hc⟩

theorem dropTrailingWs_head : ∀ (c : Char) (cs : List Char),
    dropTrailingWs (c :: cs) = [] ∨ ∃ cs2, dropTrailingWs (c :: cs) = c :: cs2 := by
  intro c cs
  cases hd : dropTrailingWs cs with
  | nil =>
      rw [dropTrailingWs, hd]
      by_cases hc : isPyWs c = true
      · left
        simp [hc]
      · right
        exact ⟨[], by simp [hc]⟩
  | cons y ys =>
      rw [dropTrailingWs, hd]
      right
      exact ⟨y :: ys, rfl⟩

theorem pyStrip_head (s : String) :
    (pyStrip s).data = [] ∨ ∃ c cs, (pyStrip s).data = c :: cs ∧ isPyWs c = false := by
  have hdata : (pyStrip s).data = stripChars s.data := rfl
  rw [hdata]
  unfold stripChars
  rcases dropWhile_ws_head s.data with h | ⟨c, cs, h, hc⟩
  · rw [h]
    exact Or.inl rfl
  · rw [h]
    rcases dropTrailingWs_head c cs with h2 | ⟨cs2, h2⟩
    · rw [h2]
      exact Or.inl rfl
    · rw [h2]
      exact Or.inr ⟨c, cs2, rfl, hc⟩

theorem strptimeDMY_elim {s : String} {d : PyDateTime}
    (h : strptimeDMY s = some d) :
    dateOk d ∧ stripChars s.data = s.data := by
  unfold strptimeDMY at h
  cases hD : parseDay s.data with
  | none =>
      rw [hD] at h
      simp at h
  | some pr =>
      rcases pr with ⟨dayN, r1⟩
      rw [hD] at h
      cases r1 with
      | nil => simp at h
      | cons dash1 r1b =>
          simp only at h
          by_cases hdash1 : dash1 = '-'
          case neg =>
            rw [if_neg hdash1] at h
            simp at h
          rw [if_pos hdash1] at h
          subst hdash1
          cases hM : parseMonth r1b with
          | none =>
              rw [hM] at h
              simp at h
          | some pm =>
              rcases pm with ⟨mN, r2⟩
              rw [hM] at h
              cases r2 with
              | nil => simp at h
              | cons dash2 r2b =>
                  simp only at h
                  by_cases hdash2 : dash2 = '-'
                  case neg =>
                    rw [if_neg hdash2] at h
                    simp at h
                  rw [if_pos hdash2] at h
                  subst hdash2
                  cases hY : parseYear4 r2b with
                  | none =>
                      rw [hY] at h
                      simp at h
                  | some py =>
                      rcases py with ⟨yN, r3⟩
                      rw [hY] at h
                      cases r3 with
                      | cons z zs => simp at h
                      | nil =>
                          simp only at h
                          by_cases hcond : (1 ≤ yN && decide (dayN ≤ daysInMonth yN mN)) = true
                          case neg =>
                            rw [if_neg hcond] at h
                            simp at h
                          rw [if_pos hcond] at h
                          rw [Option.some.injEq] at h
                          subst h
                          rw [Bool.and_eq_true, decide_eq_true_eq, decide_eq_true_eq] at hcond
                          obtain ⟨hy1, hdm⟩ := hcond
                          obtain ⟨hd1, hd31, c0, preD, hsD, hc0⟩ := parseDay_elim hD
                          obtain ⟨hm1, hm12, preM, hsM⟩ := parseMonth_elim hM
                          obtain ⟨hy99, y1, y2, y3, y4, hsY, hy4dig⟩ := parseYear4_elim hY
                          constructor
                          · exact ⟨hy1, hy99, hm1, hm12, hd1, hdm, rfl⟩
                          · apply stripChars_of_ends
                            · exact ⟨c0, preD ++ '-' :: r1b, by rw [hsD]; simp, hc0⟩
                            · refine ⟨(c0 :: preD) ++ '-' :: (preM ++ '-' :: [y1, y2, y3]),
                                y4, ?_, ?_⟩
                              · rw [hsD, hsM, hsY]
                                simp
                              · simp only [isDig, Bool.and_eq_true, decide_eq_true_eq] at hy4dig
                                exact isPyWs_digit hy4dig.1 hy4dig.2

theorem strptime_strip_id {s : String} {d : PyDateTime}
    (h : strptimeDMY s = some d) : pyStrip s = s := by
  have h2 := (strptimeDMY_elim h).2
  unfold pyStrip
  rw [h2]

end EventsService

namespace EventsService

theorem digitChar_dig (n : Nat) : 48 ≤ (digitChar n).toNat ∧ (digitChar n).toNat ≤ 57 := by
  rcases n with _|_|_|_|_|_|_|_|_|m
  · exact ⟨by decide, by decide⟩
  · exact ⟨by decide, by decide⟩
  · exact ⟨by decide, by decide⟩
  · exact ⟨by decide, by decide⟩
  · exact ⟨by decide, by decide⟩
  · exact ⟨by decide, by decide⟩
  · exact ⟨by decide, by decide⟩
  · exact ⟨by decide, by decide⟩
  · exact ⟨by decide, by decide⟩
  · have h9 : digitChar (m + 1 + 1 + 1 + 1 + 1 + 1 + 1 + 1 + 1) = '9' := rfl
    rw [h9]
    exact ⟨by decide, by decide⟩

theorem isDig_digitChar (n : Nat) : isDig (digitChar n) = true := by
  have h := digitChar_dig n
  simp only [isDig, Bool.and_eq_true, decide_eq_true_eq]
  exact h

theorem digitVal_digitChar {n : Nat} (h : n ≤ 9) : digitVal (digitChar n) = n := by
  interval_cases n <;> decide

theorem daysInMonth_le (y m : Nat) : daysInMonth y m ≤ 31 := by
  unfold daysInMonth
  split_ifs <;> omega

theorem pad2_parseDay {n : Nat} (h1 : 1 ≤ n) (h2 : n ≤ 31) (r : List Char) :
    parseDay (pad2 n ++ r) = some (n, r) := by
  interval_cases n <;> rfl

theorem pad2_parseMonth {n : Nat} (h1 : 1 ≤ n) (h2 : n ≤ 12) (r : List Char) :
    parseMonth (pad2 n ++ r) = some (n, r) := by
  interval_cases n <;> rfl

theorem pad4_parseYear4 {y : Nat} (h : y ≤ 9999) (r : List Char) :
    parseYear4 (pad4 y ++ r) = some (y, r) := by
  have hb1 : y / 1000 % 10 ≤ 9 := by omega
  have hb2 : y / 100 % 10 ≤ 9 := by omega
  have hb3 : y / 10 % 10 ≤ 9 := by omega
  have hb4 : y % 10 ≤ 9 := by omega
  show parseYear4 (digitChar (y / 1000 % 10) :: digitChar (y / 100 % 10)
    :: digitChar (y / 10 % 10) :: digitChar (y % 10) :: r) = some (y, r)
  rw [parseYear4]
  rw [if_pos (by simp [isDig_digitChar])]
  rw [digitVal_digitChar hb1, digitVal_digitChar hb2, digitVal_digitChar hb3,
    digitVal_digitChar hb4]
  rw [Option.some.injEq, Prod.mk.injEq]
  exact ⟨by omega, rfl⟩

theorem parseYear4_pad4_nil {y : Nat} (h : y ≤ 9999) :
    parseYear4 (pad4 y) = some (y, []) := by
  have h2 := pad4_parseYear4 h []
  simpa using h2

theorem strptime_strftime {d : PyDateTime} (h : dateOk d) :
    strptimeDMY (strftimeDMY d) = some d := by
  obtain ⟨y, m, day, t⟩ := d
  obtain ⟨h1, h2, h3, h4, h5, h6, h7⟩ := h
  simp only at h1 h2 h3 h4 h5 h6 h7
  subst h7
  have hday31 : day ≤ 31 := le_trans h6 (daysInMonth_le y m)
  have hdata : (strftimeDMY ⟨y, m, day, 0⟩).data
      = pad2 day ++ '-' :: (pad2 m ++ '-' :: pad4 y) := rfl
  unfold strptimeDMY
  rw [hdata, pad2_parseDay h5 hday31]
  simp only
  rw [if_pos trivial, pad2_parseMonth h3 h4]
  simp only
  rw [if_pos trivial, parseYear4_pad4_nil h2]
  simp only
  rw [if_pos (by simp only [Bool.and_eq_true, decide_eq_true_eq]; exact ⟨h1, h6⟩)]

end EventsService

namespace EventsService

theorem string_data_append (a b : String) : (a ++ b).data = a.data ++ b.data := by
  cases a
  cases b
  rfl

theorem splitChars_ne_nil (sep : Char) : ∀ cs : List Char, splitChars sep cs ≠ [] := by
  intro cs
  cases cs with
  | nil => simp [splitChars]
  | cons c cs =>
      rw [splitChars]
      by_cases hc : c = sep
      · rw [if_pos hc]
        simp
      · rw [if_neg hc]
        cases h : splitChars sep cs <;> simp

theorem splitChars_single (sep : Char) : ∀ {cs q : List Char},
    splitChars sep cs = [q] → cs = q ∧ ∀ ch ∈ q, ch ≠ sep := by
  intro cs
  induction cs with
  | nil =>
      intro q h
      rw [splitChars, List.cons.injEq] at h
      obtain ⟨h1, _⟩ := h
      subst h1
      exact ⟨rfl, by simp⟩
  | cons c cs ih =>
      intro q h
      rw [splitChars] at h
      by_cases hc : c = sep
      · rw [if_pos hc, List.cons.injEq] at h
        exact absurd h.2 (splitChars_ne_nil sep cs)
      · rw [if_neg hc] at h
        cases hs : splitChars sep cs with
        | nil => exact absurd hs (splitChars_ne_nil sep cs)
        | cons p ps =>
            rw [hs] at h
            simp only at h
            rw [List.cons.injEq] at h
            obtain ⟨hq, hps⟩ := h
            subst hps
            obtain ⟨hcs, hnosep⟩ := ih hs
            subst hq
            constructor
            · rw [hcs]
            · intro ch hch
              rcases List.mem_cons.mp hch with rfl | hch
              · exact hc
              · exact hnosep ch hch

theorem splitChars_pair (sep : Char) : ∀ {cs p q : List Char},
    splitChars sep cs = [p, q] →
    cs = p ++ sep :: q ∧ (∀ ch ∈ p, ch ≠ sep) ∧ (∀ ch ∈ q, ch ≠ sep) := by
  intro cs
  induction cs with
  | nil =>
      intro p q h
      rw [splitChars] at h
      simp at h
  | cons c cs ih =>
      intro p q h
      rw [splitChars] at h
      by_cases hc : c = sep
      · rw [if_pos hc, List.cons.injEq] at h
        obtain ⟨hp, hq⟩ := h
        obtain ⟨hcs, hnosep⟩ := splitChars_single sep hq
        subst hc
        subst hcs
        refine ⟨?_, ?_, hnosep⟩
        · rw [← hp]
          simp
        · rw [← hp]
          simp
      · rw [if_neg hc] at h
        cases hs : splitChars sep cs with
        | nil => exact absurd hs (splitChars_ne_nil sep cs)
        | cons p0 ps =>
            rw [hs] at h
            simp only at h
            rw [List.cons.injEq] at h
            obtain ⟨hp, hps⟩ := h
            subst hps
            obtain ⟨hcs, hn0, hnq⟩ := ih hs
            subst hp
            refine ⟨?_, ?_, hnq⟩
            · rw [hcs]
              simp
            · intro ch hch
              rcases List.mem_cons.mp hch with rfl | hch
              · exact hc
              · exact hn0 ch hch

theorem splitChars_no_sep (sep : Char) : ∀ b : List Char, (∀ ch ∈ b, ch ≠ sep) →
    splitChars sep b = [b] := by
  intro b
  induction b with
  | nil => intro _; rfl
  | cons c cs ih =>
      intro h
      rw [splitChars, if_neg (h c (List.mem_cons_self c cs)),
        ih (fun x hx => h x (List.mem_cons_of_mem c hx))]

theorem splitChars_append_sep (sep : Char) : ∀ (a b : List Char),
    (∀ ch ∈ a, ch ≠ sep) →
    splitChars sep (a ++ sep :: b) = a :: splitChars sep b := by
  intro a
  induction a with
  | nil =>
      intro b _
      simp [splitChars]
  | cons c as ih =>
      intro b h
      rw [List.cons_append, splitChars, if_neg (h c (List.mem_cons_self c as)),
        ih b (fun x hx => h x (List.mem_cons_of_mem c hx))]

theorem pySplit_elim {l pS qS : String}
    (h : pySplit ';' l = [pS, qS]) :
    l.data = pS.data ++ ';' :: qS.data ∧ (∀ ch ∈ pS.data, ch ≠ ';') ∧
      (∀ ch ∈ qS.data, ch ≠ ';') := by
  unfold pySplit at h
  cases hs : splitChars ';' l.data with
  | nil => exact absurd hs (splitChars_ne_nil ';' l.data)
  | cons a as =>
      rw [hs] at h
      cases as with
      | nil => simp at h
      | cons b bs =>
          cases bs with
          | cons x xs => simp at h
          | nil =>
              simp only [List.map_cons, List.map_nil, List.cons.injEq, and_true] at h
              obtain ⟨ha, hb⟩ := h
              obtain ⟨hcs, hn1, hn2⟩ := splitChars_pair ';' hs
              subst ha
              subst hb
              exact ⟨hcs, hn1, hn2⟩

theorem pySplit_intro {a b : List Char}
    (hna : ∀ ch ∈ a, ch ≠ ';') (hnb : ∀ ch ∈ b, ch ≠ ';') :
    pySplit ';' ⟨a ++ ';' :: b⟩ = [⟨a⟩, ⟨b⟩] := by
  unfold pySplit
  have hd : (⟨a ++ ';' :: b⟩ : String).data = a ++ ';' :: b := rfl
  rw [hd, splitChars_append_sep ';' a b hna, splitChars_no_sep ';' b hnb]
  rfl

end EventsService

namespace EventsService

theorem isPyWs_digitChar (n : Nat) : isPyWs (digitChar n) = false :=
  isPyWs_digit (digitChar_dig n).1 (digitChar_dig n).2

theorem digitChar_ne_semi (n : Nat) : digitChar n ≠ ';' := by
  intro he
  have h := digitChar_dig n
  rw [he] at h
  revert h
  decide

theorem strftime_data (d : PyDateTime) : (strftimeDMY d).data =
    [digitChar (d.day / 10 % 10), digitChar (d.day % 10), '-',
     digitChar (d.month / 10 % 10), digitChar (d.month % 10), '-',
     digitChar (d.year / 1000 % 10), digitChar (d.year / 100 % 10),
     digitChar (d.year / 10 % 10), digitChar (d.year % 10)] := rfl

theorem strftime_chars (d : PyDateTime) :
    ∀ ch ∈ (strftimeDMY d).data, isPyWs ch = false ∧ ch ≠ ';' := by
  intro ch hch
  rw [strftime_data] at hch
  simp only [List.mem_cons, List.not_mem_nil, or_false] at hch
  rcases hch with rfl | rfl | rfl | rfl | rfl | rfl | rfl | rfl | rfl | rfl
  all_goals first
    | exact ⟨isPyWs_digitChar _, digitChar_ne_semi _⟩
    | exact ⟨by decide, by decide⟩

theorem strftime_ne_empty (d : PyDateTime) : strftimeDMY d ≠ "" := by
  intro he
  have h : (strftimeDMY d).data = [] := by rw [he]
  rw [strftime_data] at h
  exact List.cons_ne_nil _ _ h

theorem pyStrip_strftime (d : PyDateTime) :
    pyStrip (strftimeDMY d) = strftimeDMY d := by
  unfold pyStrip
  rw [stripChars_no_ws (fun c hc => (strftime_chars d c hc).1)]

theorem saveLine_data (e : Event) :
    (saveLine e).data = e.event_name.data ++ ';' :: (strftimeDMY e.date).data := by
  unfold saveLine
  rw [string_data_append, string_data_append]
  simp

theorem nameMatches_ne_empty {s : String} (h : nameMatches s = true) : s ≠ "" := by
  intro he
  rw [he] at h
  exact absurd h (by decide)

theorem saveLine_pySplit {e : Event} (hns : ∀ c ∈ e.event_name.data, c ≠ ';') :
    pySplit ';' (saveLine e) = [e.event_name, strftimeDMY e.date] := by
  unfold pySplit
  rw [saveLine_data, splitChars_append_sep ';' _ _ hns,
    splitChars_no_sep ';' _ (fun c hc => (strftime_chars e.date c hc).2)]
  simp only [List.map_cons, List.map_nil, string_mk_data]

theorem saveLine_strip {e : Event}
    (hh : ∃ c cs, e.event_name.data = c :: cs ∧ isPyWs c = false) :
    pyStrip (saveLine e) = saveLine e := by
  have hs : stripChars (saveLine e).data = (saveLine e).data := by
    apply stripChars_of_ends
    · obtain ⟨c, cs, hnc, hcw⟩ := hh
      refine ⟨c, cs ++ ';' :: (strftimeDMY e.date).data, ?_, hcw⟩
      rw [saveLine_data, hnc]
      simp
    · refine ⟨e.event_name.data ++ ';' ::
        [digitChar (e.date.day / 10 % 10), digitChar (e.date.day % 10), '-',
         digitChar (e.date.month / 10 % 10), digitChar (e.date.month % 10), '-',
         digitChar (e.date.year / 1000 % 10), digitChar (e.date.year / 100 % 10),
         digitChar (e.date.year / 10 % 10)],
        digitChar (e.date.year % 10), ?_, isPyWs_digitChar _⟩
      rw [saveLine_data, strftime_data]
      simp
  unfold pyStrip
  rw [hs]

theorem saveLine_validate {ap : Bool} {now : PyDateTime} {e : Event}
    (hg : goodEvent ap now e) :
    eventValidate ap now (saveLine e) = (true, []) := by
  obtain ⟨hh, hns, hnm, hdok, hpast⟩ := hg
  unfold eventValidate
  rw [saveLine_pySplit hns]
  simp only
  rw [pyStrip_strftime, if_neg (nameMatches_ne_empty hnm), if_pos hnm,
    if_neg (strftime_ne_empty e.date), strptime_strftime hdok]
  simp only
  have hpc : (!ap && dtLtB e.date now) = false := by
    cases ap with
    | true => simp
    | false =>
        rw [hpast rfl]
        simp
  rw [hpc]
  simp

theorem saveLine_fromStr {e : Event} (hns : ∀ c ∈ e.event_name.data, c ≠ ';')
    (hdok : dateOk e.date) : eventFromStr (saveLine e) = .ok e := by
  unfold eventFromStr
  rw [saveLine_pySplit hns]
  simp only
  rw [strptime_strftime hdok]

end EventsService

namespace EventsService

open CarsService (SortedBy pySorted pySorted_sorted mem_pySorted pySorted_of_sorted)

theorem loadEvents_mem {stop allowPast : Bool} {now : PyDateTime} :
    ∀ {lines : List String} {evs : List Event},
      loadEvents stop allowPast now lines = .ok evs →
      ∀ e ∈ evs, ∃ l ∈ lines, (eventValidate allowPast now l).fst = true ∧
        eventFromStr l = .ok e := by
  intro lines
  induction lines with
  | nil =>
      intro evs h e he
      simp only [loadEvents] at h
      cases h
      exact absurd he (List.not_mem_nil e)
  | cons l rest ih =>
      intro evs h e he
      unfold loadEvents at h
      rcases hEV : eventValidate allowPast now l with ⟨b, errs⟩
      rw [hEV] at h
      cases b with
      | true =>
          cases hFS : eventFromStr l with
          | error er =>
              rw [hFS] at h
              simp at h
          | ok e0 =>
              rw [hFS] at h
              cases hR : loadEvents stop allowPast now rest with
              | error er =>
                  rw [hR] at h
                  simp [Except.map] at h
              | ok es =>
                  rw [hR] at h
                  simp only [Except.map, Except.ok.injEq] at h
                  subst h
                  rcases List.mem_cons.mp he with rfl | he2
                  · exact ⟨l, List.mem_cons_self l rest, by rw [hEV], hFS⟩
                  · obtain ⟨l2, hl2, hv2, hf2⟩ := ih hR e he2
                    exact ⟨l2, List.mem_cons_of_mem l hl2, hv2, hf2⟩
      | false =>
          cases stop with
          | true =>
              rw [if_pos rfl] at h
              simp at h
          | false =>
              rw [if_neg (by simp)] at h
              obtain ⟨l2, hl2, hv2, hf2⟩ := ih h e he
              exact ⟨l2, List.mem_cons_of_mem l hl2, hv2, hf2⟩

theorem stripped_good {ap : Bool} {now : PyDateTime} {l0 : String} {e : Event}
    (hv : (eventValidate ap now (pyStrip l0)).fst = true)
    (hf : eventFromStr (pyStrip l0) = .ok e) : goodEvent ap now e := by
  obtain ⟨p, q, hsp, hnm, d, hd, hpast⟩ := eventValidate_true_elim hv
  obtain ⟨p2, q2, hsp2, hep, heq⟩ := eventFromStr_ok_elim hf
  rw [hsp] at hsp2
  simp only [List.cons.injEq, and_true] at hsp2
  obtain ⟨hp12, hq12⟩ := hsp2
  rw [← hp12] at hep
  rw [← hq12] at heq
  have hqs : pyStrip q = q := strptime_strip_id heq
  have hdok := (strptimeDMY_elim heq).1
  rw [hqs] at hd
  have hde : d = e.date := by
    rw [hd] at heq
    exact Option.some.inj heq
  obtain ⟨hdata, hnsP, _⟩ := pySplit_elim hsp
  have hnsemi : ∀ c ∈ e.event_name.data, c ≠ ';' := by
    rw [hep]
    exact hnsP
  have hnm2 : nameMatches (pyStrip e.event_name) = true := by
    rw [hep]
    exact hnm
  have hpne : p.data ≠ [] := by
    intro h0
    have hps : pyStrip p = "" := by
      unfold pyStrip
      rw [h0]
      rfl
    rw [hps] at hnm
    exact absurd hnm (by decide)
  rcases pyStrip_head l0 with h0 | ⟨c, cs, hh, hcw⟩
  · rw [hdata] at h0
    simp at h0
  · have hcomb : p.data ++ ';' :: q.data = c :: cs := by
      rw [← hdata]
      exact hh
    cases hp : p.data with
    | nil => exact absurd hp hpne
    | cons a as =>
        rw [hp, List.cons_append, List.cons.injEq] at hcomb
        obtain ⟨hac, _⟩ := hcomb
        refine ⟨⟨c, as, ?_, hcw⟩, hnsemi, hnm2, hde ▸ hdok, ?_⟩
        · rw [hep, hp, hac]
        · intro hap
          exact hde ▸ hpast hap

theorem loadEvents_of_good {stop ap : Bool} {now : PyDateTime} :
    ∀ (evs : List Event),
      (∀ e ∈ evs, eventValidate ap now (saveLine e) = (true, []) ∧
        eventFromStr (saveLine e) = .ok e) →
      loadEvents stop ap now (evs.map saveLine) = .ok evs := by
  intro evs
  induction evs with
  | nil => intro _; rfl
  | cons e es ih =>
      intro h
      have he := h e (List.mem_cons_self e es)
      simp only [List.map_cons]
      unfold loadEvents
      rw [he.1]
      simp only
      rw [he.2]
      simp only
      rw [ih (fun x hx => h x (List.mem_cons_of_mem e hx))]
      rfl

theorem getEvents_good {stop ap : Bool} {now : PyDateTime} {lines : List String}
    {evs : List Event} (h : getEvents stop ap now lines = .ok evs) :
    (∀ e ∈ evs, goodEvent ap now e) ∧ SortedBy evLt evs := by
  unfold getEvents at h
  cases hL : loadEvents stop ap now (lines.map pyStrip) with
  | error er =>
      rw [hL] at h
      simp [Except.map] at h
  | ok raw =>
      rw [hL] at h
      simp only [Except.map, Except.ok.injEq] at h
      subst h
      constructor
      · intro e he
        have heraw : e ∈ raw := mem_pySorted.mp he
        obtain ⟨l, hl, hv, hf⟩ := loadEvents_mem hL e heraw
        obtain ⟨l0, hl0, rfl⟩ := List.mem_map.mp hl
        exact stripped_good hv hf
      · exact pySorted_sorted evLt_asym evLt_tr1 raw

end EventsService

namespace EventsService

open CarsService (pySorted_of_sorted)

/-- Claim C7: round trip — for every event collection produced by the
loader (hence date-sorted and validation-passing), writing it with
`save_sorted_events` and re-reading the written lines through the loader
with the same date format and delimiter (and the same current moment for
the past-date check, in either loading mode) reproduces the same
entities — equal names and equal dates — in the same order. -/
theorem getEvents_roundtrip (stop stop2 allowPast : Bool) (now : PyDateTime)
    (lines : List String) (evs : List Event)
    (h : getEvents stop allowPast now lines = .ok evs) :
    getEvents stop2 allowPast now (saveSortedEvents evs) = .ok evs := by
  obtain ⟨hgood, hsorted⟩ := getEvents_good h
  have hprops : ∀ e ∈ evs, pyStrip (saveLine e) = saveLine e ∧
      eventValidate allowPast now (saveLine e) = (true, []) ∧
      eventFromStr (saveLine e) = .ok e := by
    intro e he
    obtain ⟨hh, hns, hnm, hdok, hpast⟩ := hgood e he
    exact ⟨saveLine_strip hh, saveLine_validate ⟨hh, hns, hnm, hdok, hpast⟩,
      saveLine_fromStr hns hdok⟩
  unfold getEvents saveSortedEvents
  have hms : (evs.map saveLine).map pyStrip = evs.map saveLine := by
    rw [List.map_map]
    exact List.map_congr_left (fun e he => (hprops e he).1)
  rw [hms, loadEvents_of_good evs (fun e he => ⟨(hprops e he).2.1, (hprops e he).2.2⟩)]
  simp only [Except.map]
  rw [pySorted_of_sorted hsorted]

/-- The round trip at the acceptance example: the three spec lines load
to the sorted spec events, and re-reading the saved lines reproduces
them. -/
theorem getEvents_roundtrip_witness :
    getEvents true false refNow specLines = .ok specEvents ∧
    getEvents true false refNow (saveSortedEvents specEvents) = .ok specEvents :=
  ⟨by decide, getEvents_roundtrip true true false refNow specLines specEvents (by decide)⟩

end EventsService
